import Mathlib

/-!
Verification of the LaTeXy editor core logic (hemanth/latexy).

The JavaScript source is shallowly embedded: document contents are lists of
characters, the regular expressions of the source are implemented as
deterministic matchers with JavaScript semantics (lazy quantifiers,
left-most non-overlapping global scans), and the DOM/editor state touched by
each function is made an explicit argument or result.
-/

namespace Latexy

/-- The opening-brace character. -/
def obChar : Char := '\x7b'

/-- The closing-brace character. -/
def cbChar : Char := '\x7d'

/-- The backslash character. -/
def bsChar : Char := '\\'

/-- The newline character. -/
def nlChar : Char := '\n'

/-- JavaScript `String.prototype.split` with a single-character separator:
`splitOnChar sep cs` never returns an empty list, and separators delimit
(possibly empty) fields. -/
def splitOnChar (sep : Char) : List Char → List (List Char)
  | [] => [[]]
  | c :: rest =>
    match splitOnChar sep rest with
    | [] => if c = sep then [[], []] else [[c]]
    | h :: t => if c = sep then [] :: h :: t else (c :: h) :: t

/-- Joining with a separator, the inverse of `splitOnChar`
(JavaScript `Array.prototype.join`). -/
def joinSep (sep : Char) : List (List Char) → List Char
  | [] => []
  | [l] => l
  | l :: ls => l ++ sep :: joinSep sep ls

theorem splitOnChar_ne_nil (sep : Char) (cs : List Char) : splitOnChar sep cs ≠ [] := by
  cases cs with
  | nil => simp [splitOnChar]
  | cons c rest =>
    simp only [splitOnChar]
    rcases splitOnChar sep rest with _ | ⟨h', t⟩ <;> by_cases hc : c = sep <;> simp [hc]

theorem joinSep_splitOnChar (sep : Char) (cs : List Char) :
    joinSep sep (splitOnChar sep cs) = cs := by
  induction cs with
  | nil => rfl
  | cons c rest ih =>
    simp only [splitOnChar]
    rcases h : splitOnChar sep rest with _ | ⟨h', t⟩
    · exact absurd h (splitOnChar_ne_nil sep rest)
    · rw [h] at ih
      by_cases hc : c = sep
      · subst hc
        simp only [if_pos rfl, joinSep]
        cases t <;> simpa [joinSep] using ih
      · simp only [if_neg hc]
        cases t <;> simpa [joinSep] using ih

/-! ## Diff view (`renderDiff`)

`renderDiff` splits both documents on newlines and compares the two line
lists index by index, padding the shorter list with empty lines.  Each index
yields one row of the side-by-side view: the original pane line (possibly
marked `removed`) and the modified pane line (possibly marked `added`). -/

/-- One row of the side-by-side diff view: the text placed in the original
pane, the text placed in the modified pane, and the css classes
(`removed` / `added`) attached to them. -/
structure DiffRow where
  origText : List Char
  modText : List Char
  origRemoved : Bool
  modAdded : Bool
deriving DecidableEq, Repr, Inhabited

/-- `renderDiff` from the source: a naive line-index zip-and-compare.  The
HTML string construction is modelled as the list of rows it renders. -/
def renderDiff (original modified : List Char) : List DiffRow :=
  let originalLines := splitOnChar nlChar original
  let modifiedLines := splitOnChar nlChar modified
  let maxLines := max originalLines.length modifiedLines.length
  (List.range maxLines).map (fun i =>
    let origLine := originalLines.getD i []
    let modLine := modifiedLines.getD i []
    if origLine = modLine then
      ⟨origLine, modLine, false, false⟩
    else
      ⟨origLine, modLine, true, true⟩)

/-! ## Preview zoom (`initToolbar`)

The zoom factor starts at `1`; the zoom-in handler executes
`zoom = Math.min(zoom + 0.1, 2)` and the zoom-out handler
`zoom = Math.max(zoom - 0.1, 0.5)`. -/

/-- A click on one of the two zoom buttons. -/
inductive ZoomClick where
  | zoomIn
  | zoomOut
deriving DecidableEq, Repr

/-- The zoom update performed by each button's click handler. -/
def zoomStep (z : ℚ) : ZoomClick → ℚ
  | .zoomIn => min (z + 1/10) 2
  | .zoomOut => max (z - 1/10) (1/2)

/-- The zoom factor after a sequence of clicks, starting from `1`. -/
def zoomAfter (clicks : List ZoomClick) : ℚ :=
  clicks.foldl zoomStep 1

/-! ## LLM dispatch (`sendMessage`)

The provider calls (`callOpenAI` … `callOllama`) perform `fetch` requests;
they are modelled by an oracle mapping the provider name and the message to
either a thrown error message or a returned content string.  `sendMessage`
additionally reports how many times the oracle was invoked, so that
"no provider call" and "no retry" are expressible. -/

/-- The settings object of the application state, with its initial values
matching the source. -/
structure Settings where
  openaiKey : String
  anthropicKey : String
  geminiKey : String
  ollamaUrl : String
  autoCompile : Bool
  syncScroll : Bool
deriving DecidableEq, Repr

/-- The initial `state.settings` literal from the source. -/
def defaultSettings : Settings :=
  ⟨"", "", "", "http://localhost:11434", true, false⟩

/-- `getApiKey` from the source: the switch over the provider name, with
default case the empty string. -/
def getApiKey (provider : String) (s : Settings) : String :=
  if provider = "openai" then s.openaiKey
  else if provider = "anthropic" then s.anthropicKey
  else if provider = "gemini" then s.geminiKey
  else ""

/-- The value returned by `sendMessage`: an object with either a `content`
field or an `error` field. -/
inductive SendResult where
  | content (text : String)
  | error (message : String)
deriving DecidableEq, Repr

/-- The context message built by `sendMessage` before dispatching. -/
def contextMessage (currentContent message : String) : String :=
  "Current LaTeX document:\n```latex\n" ++ currentContent ++ "\n```\n\nUser request: " ++ message

/-- JavaScript `String.prototype.toUpperCase` restricted to its ASCII
behaviour, which is all the source applies it to. -/
def toUpperStr (s : String) : String :=
  String.mk (s.data.map Char.toUpper)

/-- The configure-your-key error message returned when a non-ollama provider
has no API key configured. -/
def configureKeyError (provider : String) : String :=
  "Please configure your " ++ toUpperStr provider ++ " API key in Settings."

/-- `sendMessage` from the source.  `call provider msg` models the selected
provider function; `.error e` models a thrown exception with message `e`
(caught by the surrounding `try`).  The second component counts provider
invocations. -/
def sendMessage (provider : String) (settings : Settings) (currentContent message : String)
    (call : String → String → Except String String) : SendResult × Nat :=
  let apiKey := getApiKey provider settings
  if apiKey = "" ∧ provider ≠ "ollama" then
    (.error (configureKeyError provider), 0)
  else
    let ctx := contextMessage currentContent message
    if provider = "openai" ∨ provider = "anthropic" ∨ provider = "gemini" ∨
        provider = "ollama" then
      match call provider ctx with
      | .ok c => (.content c, 1)
      | .error e => (.error e, 1)
    else
      (.error "Unknown provider", 0)

/-! ## Substring utilities and `applyCodeToEditor` -/

/-- Does `hay` start with `needle`? -/
def startsWithL (needle : List Char) (hay : List Char) : Bool :=
  match needle, hay with
  | [], _ => true
  | _ :: _, [] => false
  | a :: as, b :: bs => a == b && startsWithL as bs

/-- JavaScript `String.prototype.includes`: does `needle` occur as a
contiguous substring of `hay`? -/
def containsSub (needle : List Char) : List Char → Bool
  | [] => startsWithL needle []
  | c :: rest => startsWithL needle (c :: rest) || containsSub needle rest

/-- JavaScript `String.prototype.lastIndexOf`: the position of the last
occurrence of `needle`, if any. -/
def lastIndexOfL (needle : List Char) : List Char → Option Nat
  | [] => if startsWithL needle [] then some 0 else none
  | c :: rest =>
    match lastIndexOfL needle rest with
    | some j => some (j + 1)
    | none => if startsWithL needle (c :: rest) then some 0 else none

theorem startsWithL_iff (needle hay : List Char) :
    startsWithL needle hay = true ↔ ∃ t, hay = needle ++ t := by
  induction needle generalizing hay with
  | nil => simp [startsWithL]
  | cons a as ih =>
    cases hay with
    | nil => simp [startsWithL]
    | cons b bs =>
      simp only [startsWithL, Bool.and_eq_true, beq_iff_eq, ih, List.cons_append,
        List.cons.injEq]
      constructor
      · rintro ⟨rfl, t, rfl⟩; exact ⟨t, rfl, rfl⟩
      · rintro ⟨t, rfl, rfl⟩; exact ⟨rfl, t, rfl⟩

theorem containsSub_iff (needle hay : List Char) :
    containsSub needle hay = true ↔ ∃ q, startsWithL needle (hay.drop q) = true := by
  induction hay with
  | nil =>
    simp only [containsSub]
    constructor
    · intro h; exact ⟨0, h⟩
    · rintro ⟨q, hq⟩; simpa using hq
  | cons c rest ih =>
    simp only [containsSub, Bool.or_eq_true, ih]
    constructor
    · rintro (h | ⟨q, hq⟩)
      · exact ⟨0, h⟩
      · exact ⟨q + 1, hq⟩
    · rintro ⟨q, hq⟩
      cases q with
      | zero => exact Or.inl hq
      | succ q' => exact Or.inr ⟨q', hq⟩

theorem lastIndexOfL_sound (needle : List Char) (hay : List Char) (j : Nat)
    (h : lastIndexOfL needle hay = some j) :
    startsWithL needle (hay.drop j) = true := by
  induction hay generalizing j with
  | nil =>
    by_cases hs : startsWithL needle ([] : List Char) = true
    · simp only [lastIndexOfL, if_pos hs] at h
      cases h; simpa using hs
    · simp only [lastIndexOfL, if_neg hs] at h; cases h
  | cons c rest ih =>
    rcases hr : lastIndexOfL needle rest with _ | j'
    · by_cases hs : startsWithL needle (c :: rest) = true
      · simp only [lastIndexOfL, hr, if_pos hs] at h
        cases h; simpa using hs
      · simp only [lastIndexOfL, hr, if_neg hs] at h; cases h
    · simp only [lastIndexOfL, hr] at h
      cases h
      simpa using ih j' hr

theorem lastIndexOfL_none (needle hay : List Char)
    (h : containsSub needle hay = false) :
    lastIndexOfL needle hay = none := by
  induction hay with
  | nil =>
    simp only [containsSub] at h
    simp [lastIndexOfL, h]
  | cons c rest ih =>
    simp only [containsSub, Bool.or_eq_false_iff] at h
    simp [lastIndexOfL, ih h.2, h.1]

theorem lastIndexOfL_last (needle : List Char) (hay : List Char)
    (p : Nat)
    (h1 : startsWithL needle (hay.drop p) = true)
    (h2 : ∀ q, p < q → startsWithL needle (hay.drop q) = false) :
    lastIndexOfL needle hay = some p := by
  induction hay generalizing p with
  | nil =>
    exfalso
    have h3 := h2 (p + 1) (Nat.lt_succ_self p)
    simp only [List.drop_nil] at h1 h3
    rw [h1] at h3
    exact Bool.true_eq_false.mp h3
  | cons c rest ih =>
    cases p with
    | zero =>
      have hnone : lastIndexOfL needle rest = none := by
        rcases hr : lastIndexOfL needle rest with _ | j'
        · rfl
        · exfalso
          have hs := lastIndexOfL_sound needle rest j' hr
          have := h2 (j' + 1) (Nat.succ_pos j')
          rw [List.drop_succ_cons] at this
          rw [hs] at this
          exact Bool.true_eq_false.mp this
      simp only [lastIndexOfL, hnone]
      rw [List.drop_zero] at h1
      simp [h1]
    | succ p' =>
      have ihr : lastIndexOfL needle rest = some p' := by
        apply ih p'
        · simpa using h1
        · intro q hq
          have := h2 (q + 1) (Nat.succ_lt_succ hq)
          simpa using this
      simp [lastIndexOfL, ihr]

/-- The literal `\documentclass` tested by `applyCodeToEditor`. -/
def docClassLit : List Char := "\\documentclass".data

/-- The literal `\end{document}` searched by `applyCodeToEditor`. -/
def endDocLit : List Char := "\\end".data ++ obChar :: "document".data ++ [cbChar]

/-- `applyCodeToEditor` from the source, as a function from the applied code
fragment and the current buffer to the new buffer. -/
def applyCodeToEditor (code buffer : List Char) : List Char :=
  if containsSub docClassLit code then code
  else
    match lastIndexOfL endDocLit buffer with
    | some p => buffer.take p ++ code ++ nlChar :: nlChar :: buffer.drop p
    | none => buffer ++ nlChar :: nlChar :: code

theorem containsSub_false_iff (needle hay : List Char) :
    containsSub needle hay = false ↔ ∀ q, startsWithL needle (hay.drop q) = false := by
  constructor
  · intro h q
    by_contra hq
    rw [Bool.not_eq_false] at hq
    have hc : containsSub needle hay = true := (containsSub_iff needle hay).mpr ⟨q, hq⟩
    simp [h] at hc
  · intro h
    by_contra hc
    rw [Bool.not_eq_false] at hc
    obtain ⟨q, hq⟩ := (containsSub_iff needle hay).mp hc
    simp [h q] at hq

/-- C7: `applyCodeToEditor` replaces the whole buffer by the fragment when
the fragment contains `\documentclass`; otherwise, when the buffer contains
`\end` followed by braced `document` (decomposed here at its last
occurrence), the fragment plus two newlines is spliced in immediately
before that last occurrence with the rest of the buffer unchanged; and
otherwise two newlines plus the fragment are appended at the end. -/
theorem applyCodeToEditor_spec (code buffer : List Char) :
    (containsSub docClassLit code = true → applyCodeToEditor code buffer = code)
    ∧ (containsSub docClassLit code = false →
        ∀ u v, buffer = u ++ endDocLit ++ v →
          containsSub endDocLit (endDocLit.drop 1 ++ v) = false →
          applyCodeToEditor code buffer
            = u ++ (code ++ (nlChar :: nlChar :: (endDocLit ++ v))))
    ∧ (containsSub docClassLit code = false → containsSub endDocLit buffer = false →
        applyCodeToEditor code buffer = buffer ++ nlChar :: nlChar :: code) := by
  refine ⟨?_, ?_, ?_⟩
  · intro h; simp [applyCodeToEditor, h]
  · intro h u v hbuf hno
    have hlast : lastIndexOfL endDocLit buffer = some u.length := by
      apply lastIndexOfL_last
      · rw [hbuf, List.append_assoc, List.drop_left]
        exact (startsWithL_iff _ _).mpr ⟨v, rfl⟩
      · intro q hq
        obtain ⟨r, rfl⟩ : ∃ r, q = u.length + (1 + r) := ⟨q - u.length - 1, by omega⟩
        have hdrop : buffer.drop (u.length + (1 + r)) = (endDocLit.drop 1 ++ v).drop r := by
          rw [hbuf, List.append_assoc, List.drop_append]
          have he : endDocLit ++ v = bsChar :: (endDocLit.drop 1 ++ v) := rfl
          rw [he, ← List.drop_drop, List.drop_one]
          rfl
        rw [hdrop]
        exact (containsSub_false_iff _ _).mp hno r
    have hred : applyCodeToEditor code buffer
        = buffer.take u.length ++ code ++ nlChar :: nlChar :: buffer.drop u.length := by
      rw [applyCodeToEditor, if_neg (by simp [h]), hlast]
    rw [hred, hbuf]
    simp only [List.append_assoc, List.take_left, List.drop_left]
  · intro h hno
    simp [applyCodeToEditor, h, lastIndexOfL_none _ _ hno]

/-- C7 witness: splicing a fragment into a concrete buffer that ends with an
end-of-document marker followed by a newline. -/
theorem applyCodeToEditor_spec_witness :
    applyCodeToEditor "x".data ("a\n".data ++ endDocLit ++ [nlChar])
      = "a\n".data ++ ("x".data ++ (nlChar :: nlChar :: (endDocLit ++ [nlChar]))) :=
  (applyCodeToEditor_spec "x".data _).2.1 (by decide) "a\n".data [nlChar] rfl (by decide)

/-! ## The `\usepackage` regular expressions

The package manager uses two regular expressions built around the literal
`\usepackage`:

* the scan regex `\usepackage(?:\[.*?\])?\{([^}]+)\}` (global), used by
  `getInstalledPackages`;
* the removal regex `\usepackage(?:\[.*?\])?\{NAME\}\n?` (global), used by
  `removePackage`.

They are embedded as deterministic matchers with JavaScript semantics: `.`
matches anything but line terminators, `.*?` is lazy (candidates tried
shortest first, each requiring the rest of the pattern to match), `[^}]+`
is the maximal nonempty run of characters before the first closing brace,
and a global scan collects left-most non-overlapping matches. -/

/-- JavaScript `\w`: ASCII letters, digits and underscore. -/
def wordChar (c : Char) : Bool := c.isAlphanum || c = '_'

/-- JavaScript `.` without the `s` flag: any character except a line
terminator. -/
def dotChar (c : Char) : Bool :=
  !(c = nlChar || c = '\r' || c = '\u2028' || c = '\u2029')

/-- The literal `\usepackage`. -/
def usepkgLit : List Char := "\\usepackage".data

/-- Split the input at the first closing brace: the characters matched by
`[^}]*` and the characters after the closing brace. -/
def braceSplit : List Char → Option (List Char × List Char)
  | [] => none
  | c :: r =>
    if c = cbChar then some ([], r)
    else
      match braceSplit r with
      | some (g, tail) => some (c :: g, tail)
      | none => none

/-- The matcher for the tail `\{([^}]+)\}` of the scan regex: an opening
brace, a nonempty group of non-closing-brace characters, a closing brace.
Returns the captured group and the remaining input. -/
def braceProbe (cs : List Char) : Option (List Char × List Char) :=
  match cs with
  | c :: r =>
    if c = obChar then
      match braceSplit r with
      | some (g, tail) => if g = [] then none else some (g, tail)
      | none => none
    else none
  | [] => none

/-- The matcher for the lazy optional bracket part `\[.*?\]` followed by
`\{([^}]+)\}`, applied to the input just after the opening bracket.
Returns the characters matched by `.*?`, the captured group, and the
remaining input. -/
def lazyOpt : List Char → Option (List Char × List Char × List Char)
  | [] => none
  | c :: r =>
    match (if c = ']' then braceProbe r else none) with
    | some (g, tail) => some ([], g, tail)
    | none =>
      if dotChar c then
        match lazyOpt r with
        | some (inner, g, tail) => some (c :: inner, g, tail)
        | none => none
      else none

theorem braceSplit_sound (cs : List Char) (g t : List Char)
    (h : braceSplit cs = some (g, t)) :
    cs = g ++ cbChar :: t ∧ cbChar ∉ g := by
  induction cs generalizing g with
  | nil => cases h
  | cons c r ih =>
    by_cases hc : c = cbChar
    · subst hc
      simp only [braceSplit, if_pos rfl] at h
      cases h
      exact ⟨rfl, by simp⟩
    · rcases hr : braceSplit r with _ | ⟨g', t'⟩ <;>
        simp only [braceSplit, if_neg hc, hr] at h
      · cases h
      · cases h
        obtain ⟨he, hm⟩ := ih g' hr
        constructor
        · simp [he]
        · simp only [List.mem_cons, not_or]
          exact ⟨fun hcc => hc hcc.symm, hm⟩

theorem braceSplit_self (g : List Char) (hm : cbChar ∉ g) (t : List Char) :
    braceSplit (g ++ cbChar :: t) = some (g, t) := by
  induction g with
  | nil => simp [braceSplit]
  | cons c g' ih =>
    have hc : c ≠ cbChar := fun hc => hm (hc ▸ List.mem_cons_self c g')
    have hm' : cbChar ∉ g' := fun hx => hm (List.mem_cons_of_mem c hx)
    simp [braceSplit, hc, ih hm']

theorem braceSplit_eq_none (cs : List Char) :
    braceSplit cs = none ↔ cbChar ∉ cs := by
  induction cs with
  | nil => simp [braceSplit]
  | cons c r ih =>
    by_cases hc : c = cbChar
    · subst hc; simp [braceSplit]
    · rcases hr : braceSplit r with _ | ⟨g', t'⟩
      · have hm := ih.mp hr
        simp only [braceSplit, if_neg hc, hr, List.mem_cons, not_or]
        constructor
        · intro _
          exact ⟨fun hcc => hc hcc.symm, hm⟩
        · intro _
          trivial
      · have hsound := braceSplit_sound r g' t' hr
        simp only [braceSplit, if_neg hc, hr, List.mem_cons, not_or]
        constructor
        · intro hx
          exact absurd hx (by simp)
        · rintro ⟨-, hmem⟩
          have : cbChar ∈ r := by
            rw [hsound.1]; simp
          exact absurd this hmem

/-- The first segment before a closing brace is independent of what comes
after that closing brace. -/
theorem braceSplit_first (x y : List Char) :
    ∃ t, braceSplit (x ++ cbChar :: y)
      = some (x.takeWhile (fun d => !(d = cbChar)), t) := by
  induction x with
  | nil =>
    refine ⟨y, ?_⟩
    simp [braceSplit]
  | cons a x' ih =>
    by_cases ha : a = cbChar
    · subst ha
      refine ⟨x' ++ cbChar :: y, ?_⟩
      simp [braceSplit, List.takeWhile]
    · obtain ⟨t, ht⟩ := ih
      refine ⟨t, ?_⟩
      rw [List.cons_append]
      have hstep : braceSplit (a :: (x' ++ cbChar :: y))
          = match braceSplit (x' ++ cbChar :: y) with
            | some (g, tail) => some (a :: g, tail)
            | none => none := by
        simp [braceSplit, ha]
      rw [hstep]
      simp only [ht]
      simp [List.takeWhile_cons, ha]

theorem braceProbe_sound (cs : List Char) (g t : List Char)
    (h : braceProbe cs = some (g, t)) :
    cs = obChar :: g ++ cbChar :: t ∧ g ≠ [] ∧ cbChar ∉ g := by
  cases cs with
  | nil => cases h
  | cons c r =>
    by_cases hc : c = obChar
    · subst hc
      rcases hr : braceSplit r with _ | ⟨g', t'⟩ <;>
        simp only [braceProbe, if_pos rfl, hr] at h
      · cases h
      · by_cases hg : g' = []
        · rw [if_pos hg] at h; cases h
        · rw [if_neg hg] at h
          cases h
          obtain ⟨he, hm⟩ := braceSplit_sound r g t hr
          exact ⟨by simp [he], hg, hm⟩
    · simp only [braceProbe, if_neg hc] at h
      cases h

theorem braceProbe_self (g : List Char) (hne : g ≠ []) (hm : cbChar ∉ g)
    (t : List Char) :
    braceProbe (obChar :: g ++ cbChar :: t) = some (g, t) := by
  simp [braceProbe, braceSplit_self g hm t, hne]

/-- Whether `braceProbe` fails on a list containing an explicit closing
brace is independent of what follows that closing brace. -/
theorem braceProbe_none_congr (u w w' : List Char)
    (h : braceProbe (u ++ cbChar :: w) = none) :
    braceProbe (u ++ cbChar :: w') = none := by
  cases u with
  | nil =>
    have hob : ¬(cbChar = obChar) := by decide
    simp [braceProbe, hob]
  | cons a u' =>
    by_cases ha : a = obChar
    · subst ha
      obtain ⟨t1, hs1⟩ := braceSplit_first u' w
      obtain ⟨t2, hs2⟩ := braceSplit_first u' w'
      by_cases htw : u'.takeWhile (fun d => !(d = cbChar)) = []
      · simp [braceProbe, hs2, htw]
      · exfalso
        simp [braceProbe, hs1, htw] at h
    · simp [braceProbe, ha]

theorem lazyOpt_cons_rsq (r : List Char) :
    lazyOpt (']' :: r)
      = match braceProbe r with
        | some (g, tail) => some ([], g, tail)
        | none =>
          match lazyOpt r with
          | some (inner, g, tail) => some (']' :: inner, g, tail)
          | none => none := by
  have hd : dotChar ']' = true := by decide
  rcases hp : braceProbe r with _ | ⟨g, tail⟩ <;>
    rcases hl : lazyOpt r with _ | ⟨i', g', t'⟩ <;>
      simp [lazyOpt, hp, hl, hd]

theorem lazyOpt_cons_ne (c : Char) (r : List Char) (hc : c ≠ ']') (hd : dotChar c = true) :
    lazyOpt (c :: r)
      = match lazyOpt r with
        | some (inner, g, tail) => some (c :: inner, g, tail)
        | none => none := by
  rcases hl : lazyOpt r with _ | ⟨i', g', t'⟩ <;> simp [lazyOpt, hc, hd, hl]

theorem lazyOpt_cons_nodot (c : Char) (r : List Char) (hd : dotChar c = false) :
    lazyOpt (c :: r) = none := by
  have hc : c ≠ ']' := by
    intro hcc
    subst hcc
    exact absurd hd (by decide)
  simp [lazyOpt, hc, hd]

theorem lazyOpt_sound (cs : List Char) (i g t : List Char)
    (h : lazyOpt cs = some (i, g, t)) :
    cs = i ++ ']' :: obChar :: g ++ cbChar :: t
      ∧ (∀ c ∈ i, dotChar c = true) ∧ g ≠ [] ∧ cbChar ∉ g := by
  induction cs generalizing i with
  | nil => cases h
  | cons c r ih =>
    by_cases hc : c = ']'
    · subst hc
      rcases hp : braceProbe r with _ | ⟨g', tail⟩
      · rw [lazyOpt_cons_rsq] at h
        simp only [hp] at h
        rcases hl : lazyOpt r with _ | ⟨i', g'', tail'⟩
        · simp only [hl] at h; cases h
        · simp only [hl] at h
          cases h
          obtain ⟨he, hdots, hg, hm⟩ := ih i' hl
          refine ⟨by simp [he], ?_, hg, hm⟩
          intro x hx
          rcases List.mem_cons.mp hx with rfl | hx'
          · decide
          · exact hdots x hx'
      · rw [lazyOpt_cons_rsq] at h
        simp only [hp] at h
        cases h
        obtain ⟨he, hg, hm⟩ := braceProbe_sound r g t hp
        refine ⟨by simp [he], ?_, hg, hm⟩
        intro x hx; cases hx
    · by_cases hd : dotChar c = true
      · rw [lazyOpt_cons_ne c r hc hd] at h
        rcases hl : lazyOpt r with _ | ⟨i', g'', tail'⟩
        · simp only [hl] at h; cases h
        · simp only [hl] at h
          cases h
          obtain ⟨he, hdots, hg, hm⟩ := ih i' hl
          refine ⟨by simp [he], ?_, hg, hm⟩
          intro x hx
          rcases List.mem_cons.mp hx with rfl | hx'
          · exact hd
          · exact hdots x hx'
      · rw [lazyOpt_cons_nodot c r (Bool.not_eq_true _ ▸ Bool.eq_false_iff.mpr hd)] at h
        cases h

theorem lazyOpt_self (cs : List Char) (i g t : List Char)
    (h : lazyOpt cs = some (i, g, t)) :
    lazyOpt (i ++ ']' :: obChar :: g ++ [cbChar]) = some (i, g, []) := by
  induction cs generalizing i with
  | nil => cases h
  | cons c r ih =>
    by_cases hc : c = ']'
    · subst hc
      rcases hp : braceProbe r with _ | ⟨g', tail⟩
      · rw [lazyOpt_cons_rsq] at h
        simp only [hp] at h
        rcases hl : lazyOpt r with _ | ⟨i', g'', tail'⟩
        · simp only [hl] at h; cases h
        · simp only [hl] at h
          cases h
          have hrec := ih i' hl
          obtain ⟨he, -, hg, hm⟩ := lazyOpt_sound r i' g t hl
          have hnone : braceProbe (i' ++ ']' :: obChar :: g ++ [cbChar]) = none := by
            have hr0 : r = (i' ++ ']' :: obChar :: g) ++ cbChar :: t := by
              simp [he]
            have hr1 : braceProbe ((i' ++ ']' :: obChar :: g) ++ cbChar :: t) = none := by
              rw [← hr0]; exact hp
            have hr2 := braceProbe_none_congr (i' ++ ']' :: obChar :: g) t [] hr1
            simpa using hr2
          simp only [List.cons_append] at hnone hrec ⊢
          rw [lazyOpt_cons_rsq]
          simp only [hnone, hrec]
      · rw [lazyOpt_cons_rsq] at h
        simp only [hp] at h
        cases h
        obtain ⟨-, hg, hm⟩ := braceProbe_sound r g t hp
        have hpr : braceProbe (obChar :: (g ++ [cbChar])) = some (g, []) := by
          have hx := braceProbe_self g hg hm []
          simpa using hx
        simp only [List.nil_append, List.cons_append]
        rw [lazyOpt_cons_rsq]
        simp only [hpr]
    · by_cases hd : dotChar c = true
      · rw [lazyOpt_cons_ne c r hc hd] at h
        rcases hl : lazyOpt r with _ | ⟨i', g'', tail'⟩
        · simp only [hl] at h; cases h
        · simp only [hl] at h
          cases h
          have hrec := ih i' hl
          simp only [List.cons_append] at hrec ⊢
          rw [lazyOpt_cons_ne c _ hc hd]
          simp only [hrec]
      · rw [lazyOpt_cons_nodot c r (Bool.not_eq_true _ ▸ Bool.eq_false_iff.mpr hd)] at h
        cases h
/-! ## The full scan matcher and the global scan -/

/-- One match of the scan regex: the full matched text, the captured group,
and the remaining input after the match. -/
structure ScanMatch where
  full : List Char
  group : List Char
  rest : List Char
deriving DecidableEq, Repr

/-- The part of the scan regex after the literal `\usepackage`: an optional
lazy bracket group, then a braced nonempty group.  Returns the consumed
text, the captured group, and the remaining input. -/
def matchAfterLit (cs : List Char) : Option (List Char × List Char × List Char) :=
  match cs with
  | [] => none
  | c :: r2 =>
    if c = '[' then
      match lazyOpt r2 with
      | some (inner, g, tail) =>
        some ('[' :: inner ++ ']' :: obChar :: g ++ [cbChar], g, tail)
      | none => none
    else
      match braceProbe (c :: r2) with
      | some (g, tail) => some (obChar :: g ++ [cbChar], g, tail)
      | none => none

/-- The scan regex `\usepackage(?:\[.*?\])?\{([^}]+)\}` applied at the start
of the input. -/
def matchUsepkgAt (cs : List Char) : Option ScanMatch :=
  if startsWithL usepkgLit cs then
    match matchAfterLit (cs.drop usepkgLit.length) with
    | some (after, g, tail) => some ⟨usepkgLit ++ after, g, tail⟩
    | none => none
  else none

theorem startsWithL_drop (needle cs : List Char) (h : startsWithL needle cs = true) :
    cs = needle ++ cs.drop needle.length := by
  obtain ⟨t, rfl⟩ := (startsWithL_iff needle cs).mp h
  simp

theorem startsWithL_append_self (needle t : List Char) :
    startsWithL needle (needle ++ t) = true :=
  (startsWithL_iff needle (needle ++ t)).mpr ⟨t, rfl⟩

theorem matchAfterLit_sound (cs : List Char) (after g tail : List Char)
    (h : matchAfterLit cs = some (after, g, tail)) :
    cs = after ++ tail ∧ after ≠ [] ∧ g ≠ [] ∧ cbChar ∉ g := by
  cases cs with
  | nil => cases h
  | cons c r2 =>
    by_cases hc : c = '['
    · subst hc
      rw [matchAfterLit, if_pos rfl] at h
      rcases hl : lazyOpt r2 with _ | ⟨inner, g', tail'⟩
      · simp only [hl] at h; cases h
      · simp only [hl] at h
        cases h
        obtain ⟨he, -, hg, hm⟩ := lazyOpt_sound r2 inner g tail hl
        refine ⟨by simp [he], by simp, hg, hm⟩
    · rw [matchAfterLit, if_neg hc] at h
      rcases hp : braceProbe (c :: r2) with _ | ⟨g', tail'⟩
      · simp only [hp] at h; cases h
      · simp only [hp] at h
        cases h
        obtain ⟨he, hg, hm⟩ := braceProbe_sound (c :: r2) g tail hp
        refine ⟨by simp [he], by simp, hg, hm⟩

theorem matchAfterLit_self (cs : List Char) (after g tail : List Char)
    (h : matchAfterLit cs = some (after, g, tail)) :
    matchAfterLit after = some (after, g, []) := by
  cases cs with
  | nil => cases h
  | cons c r2 =>
    by_cases hc : c = '['
    · subst hc
      rw [matchAfterLit, if_pos rfl] at h
      rcases hl : lazyOpt r2 with _ | ⟨inner, g', tail'⟩
      · simp only [hl] at h; cases h
      · simp only [hl] at h
        cases h
        have hself := lazyOpt_self r2 inner g tail hl
        simp only [List.cons_append]
        rw [matchAfterLit, if_pos rfl]
        simp only [List.cons_append] at hself
        simp only [hself]
        simp
    · rw [matchAfterLit, if_neg hc] at h
      rcases hp : braceProbe (c :: r2) with _ | ⟨g', tail'⟩
      · simp only [hp] at h; cases h
      · simp only [hp] at h
        cases h
        obtain ⟨-, hg, hm⟩ := braceProbe_sound (c :: r2) g tail hp
        have hob : ¬(obChar = '[') := by decide
        simp only [List.cons_append]
        rw [matchAfterLit, if_neg hob]
        have hpr' : braceProbe (obChar :: (g ++ [cbChar])) = some (g, []) := by
          have hx := braceProbe_self g hg hm []
          simpa using hx
        simp only [hpr']
        simp

theorem matchUsepkgAt_sound (cs : List Char) (m : ScanMatch)
    (h : matchUsepkgAt cs = some m) :
    cs = m.full ++ m.rest ∧ m.full ≠ [] ∧ m.group ≠ [] ∧ cbChar ∉ m.group := by
  by_cases hs : startsWithL usepkgLit cs = true
  · rw [matchUsepkgAt, if_pos hs] at h
    rcases hal : matchAfterLit (cs.drop usepkgLit.length) with _ | ⟨after, g, tail⟩
    · simp only [hal] at h; cases h
    · simp only [hal] at h
      cases h
      obtain ⟨he, hane, hg, hm⟩ := matchAfterLit_sound _ after g tail hal
      have hcs := startsWithL_drop usepkgLit cs hs
      refine ⟨?_, by simp [usepkgLit], hg, hm⟩
      calc cs = usepkgLit ++ cs.drop usepkgLit.length := hcs
        _ = usepkgLit ++ (after ++ tail) := by rw [he]
        _ = (usepkgLit ++ after) ++ tail := by simp
  · rw [matchUsepkgAt, if_neg hs] at h
    cases h

theorem matchUsepkgAt_self (cs : List Char) (m : ScanMatch)
    (h : matchUsepkgAt cs = some m) :
    matchUsepkgAt m.full = some ⟨m.full, m.group, []⟩ := by
  by_cases hs : startsWithL usepkgLit cs = true
  · rw [matchUsepkgAt, if_pos hs] at h
    rcases hal : matchAfterLit (cs.drop usepkgLit.length) with _ | ⟨after, g, tail⟩
    · simp only [hal] at h; cases h
    · simp only [hal] at h
      cases h
      have hself := matchAfterLit_self _ after g tail hal
      rw [matchUsepkgAt, if_pos (startsWithL_append_self usepkgLit after)]
      rw [List.drop_left]
      simp only [hself]
  · rw [matchUsepkgAt, if_neg hs] at h
    cases h

theorem matchUsepkgAt_rest_lt (cs : List Char) (m : ScanMatch)
    (h : matchUsepkgAt cs = some m) :
    m.rest.length < cs.length := by
  obtain ⟨he, hne, -, -⟩ := matchUsepkgAt_sound cs m h
  rw [he, List.length_append]
  have : 0 < m.full.length := List.length_pos.mpr hne
  omega

/-- The global scan of the scan regex, fuelled by the input length: collect
left-most non-overlapping matches, restarting after each match (JavaScript
`String.prototype.match` with the `g` flag). -/
def scanGo : Nat → List Char → List ScanMatch
  | 0, _ => []
  | _ + 1, [] => []
  | fuel + 1, c :: r =>
    match matchUsepkgAt (c :: r) with
    | some m => m :: scanGo fuel m.rest
    | none => scanGo fuel r

/-- All matches of the scan regex over the input, left-most and
non-overlapping. -/
def scanAux (cs : List Char) : List ScanMatch := scanGo cs.length cs

theorem scanGo_fuel (fuel : Nat) :
    ∀ (cs : List Char), cs.length ≤ fuel → ∀ (fuel' : Nat), cs.length ≤ fuel' →
      scanGo fuel cs = scanGo fuel' cs := by
  induction fuel with
  | zero =>
    intro cs h1 fuel' h2
    have hnil : cs = [] := List.length_eq_zero.mp (Nat.le_zero.mp h1)
    subst hnil
    cases fuel' <;> rfl
  | succ f ih =>
    intro cs h1 fuel' h2
    cases cs with
    | nil => cases fuel' <;> rfl
    | cons c r =>
      cases fuel' with
      | zero => simp at h2
      | succ f' =>
        simp only [scanGo]
        rcases hm : matchUsepkgAt (c :: r) with _ | m
        · simp only [List.length_cons] at h1 h2
          show scanGo f r = scanGo f' r
          exact ih r (by omega) f' (by omega)
        · have hlt := matchUsepkgAt_rest_lt _ _ hm
          simp only [List.length_cons] at h1 h2 hlt
          show m :: scanGo f m.rest = m :: scanGo f' m.rest
          rw [ih m.rest (by omega) f' (by omega)]

theorem scanAux_nil : scanAux [] = [] := rfl

theorem scanAux_cons (c : Char) (r : List Char) :
    scanAux (c :: r)
      = match matchUsepkgAt (c :: r) with
        | some m => m :: scanAux m.rest
        | none => scanAux r := by
  show scanGo ((c :: r).length) (c :: r) = _
  simp only [List.length_cons, scanGo]
  rcases hm : matchUsepkgAt (c :: r) with _ | m
  · rfl
  · have hlt := matchUsepkgAt_rest_lt _ _ hm
    simp only [List.length_cons] at hlt
    show m :: scanGo r.length m.rest = m :: scanAux m.rest
    rw [scanGo_fuel r.length m.rest (by omega) m.rest.length (by omega)]
    rfl

/-- Every match collected by the global scan is a real match of the scan
regex at its own position. -/
theorem scanAux_mem (cs : List Char) (m : ScanMatch) (hm : m ∈ scanAux cs) :
    matchUsepkgAt (m.full ++ m.rest) = some m := by
  suffices h : ∀ (n : Nat) (cs' : List Char), cs'.length ≤ n →
      ∀ m' ∈ scanAux cs', matchUsepkgAt (m'.full ++ m'.rest) = some m' from
    h cs.length cs le_rfl m hm
  intro n
  induction n with
  | zero =>
    intro cs' h1 m' hm'
    have hnil : cs' = [] := List.length_eq_zero.mp (Nat.le_zero.mp h1)
    subst hnil
    cases hm'
  | succ k ih =>
    intro cs' h1 m' hm'
    cases cs' with
    | nil => cases hm'
    | cons c r =>
      rw [scanAux_cons] at hm'
      rcases hmt : matchUsepkgAt (c :: r) with _ | m0
      · rw [hmt] at hm'
        simp only [List.length_cons] at h1
        exact ih r (by omega) m' hm'
      · rw [hmt] at hm'
        rcases List.mem_cons.mp hm' with rfl | hm''
        · obtain ⟨he, -, -, -⟩ := matchUsepkgAt_sound _ _ hmt
          rw [← he]
          exact hmt
        · have hlt := matchUsepkgAt_rest_lt _ _ hmt
          simp only [List.length_cons] at h1 hlt
          exact ih m0.rest (by omega) m' hm''

/-! ## `getInstalledPackages` -/

/-- The first (left-most) match of the scan regex, as returned by a
non-global `String.prototype.match`. -/
def firstMatch : List Char → Option ScanMatch
  | [] => none
  | c :: r =>
    match matchUsepkgAt (c :: r) with
    | some m => some m
    | none => firstMatch r

/-- JavaScript `String.prototype.trim` on the whitespace the source can
encounter. -/
def trimL (cs : List Char) : List Char :=
  ((cs.dropWhile Char.isWhitespace).reverse.dropWhile Char.isWhitespace).reverse

/-- Split a captured directive body on commas and trim each field. -/
def splitTrim (g : List Char) : List (List Char) :=
  (splitOnChar ',' g).map trimL

/-- `getInstalledPackages` from the source: scan the active file's content
globally with the scan regex (this yields the full matched strings), then
re-match each matched string to extract its group, split the group on
commas, trim each name, and collect the names in order.  It is a pure
function of the content; no other state is consulted. -/
def getInstalledPackages (content : List Char) : List (List Char) :=
  ((scanAux content).map (fun m => m.full)).flatMap (fun s =>
    match firstMatch s with
    | some m => splitTrim m.group
    | none => [])

/-- The spec's description of the same computation: the package names
occurring inside `\usepackage` directives (with or without a bracketed
options argument), each comma-separated name contributed separately,
whitespace-trimmed, in document order. -/
def usepackageNamesSpec (content : List Char) : List (List Char) :=
  (scanAux content).flatMap (fun m => splitTrim m.group)

/-- The full-match-then-re-match round trip of the source is lossless, so
the result is precisely the comma-split, trimmed directive bodies in
document order. -/
theorem installedPackages_lossless (content : List Char) :
    getInstalledPackages content = usepackageNamesSpec content := by
  unfold getInstalledPackages usepackageNamesSpec
  suffices h : ∀ (ms : List ScanMatch),
      (∀ m ∈ ms, matchUsepkgAt (m.full ++ m.rest) = some m) →
      (ms.map (fun m => m.full)).flatMap (fun s =>
        match firstMatch s with
        | some m => splitTrim m.group
        | none => []) = ms.flatMap (fun m => splitTrim m.group) from
    h (scanAux content) (fun m hm => scanAux_mem content m hm)
  intro ms hms
  induction ms with
  | nil => rfl
  | cons m ms ih =>
    simp only [List.map_cons, List.flatMap_cons]
    have h1 := hms m (List.mem_cons_self m ms)
    have h2 := matchUsepkgAt_self _ _ h1
    obtain ⟨-, hfne, -, -⟩ := matchUsepkgAt_sound _ _ h1
    have hfirst : firstMatch m.full = some ⟨m.full, m.group, []⟩ := by
      rcases hf : m.full with _ | ⟨c, r⟩
      · exact absurd hf hfne
      · rw [firstMatch]
        rw [hf] at h2
        simp only [h2]
    rw [hfirst]
    rw [ih (fun m' hm' => hms m' (List.mem_cons_of_mem m hm'))]

/-- C4: `getInstalledPackages` is a pure function of the document text and
returns exactly the package names occurring inside `\usepackage` directives
(with or without a bracketed options argument), each comma-separated name
contributed separately, whitespace-trimmed, in document order; no separate
installed-package state is consulted. -/
theorem getInstalledPackages_eq (content : List Char) :
    getInstalledPackages content = usepackageNamesSpec content :=
  installedPackages_lossless content

/-! ## The removal regex and `removePackage` -/

/-- The tail `\{PKG\}\n?` of the removal regex: match the literal braced
package name, then optionally consume one newline.  Returns the input
remaining after the match. -/
def litProbe (pkg : List Char) (cs : List Char) : Option (List Char) :=
  if startsWithL (obChar :: pkg ++ [cbChar]) cs then
    match cs.drop (pkg.length + 2) with
    | c :: t => if c = nlChar then some t else some (c :: t)
    | [] => some []
  else none

/-- The lazy optional bracket part of the removal regex: try each closing
bracket (shortest first), requiring the literal braced name right after
it. -/
def lazyOptLit (pkg : List Char) : List Char → Option (List Char)
  | [] => none
  | c :: r =>
    match (if c = ']' then litProbe pkg r else none) with
    | some t => some t
    | none =>
      if dotChar c then lazyOptLit pkg r else none

/-- The removal regex `\usepackage(?:\[.*?\])?\{PKG\}\n?` applied at the
start of the input; returns the input remaining after the match. -/
def removeMatchAt (pkg : List Char) (cs : List Char) : Option (List Char) :=
  if startsWithL usepkgLit cs then
    match cs.drop usepkgLit.length with
    | [] => none
    | c :: r2 =>
      if c = '[' then lazyOptLit pkg r2
      else litProbe pkg (c :: r2)
  else none

theorem litProbe_length_lt (pkg cs t : List Char) (h : litProbe pkg cs = some t) :
    t.length < cs.length := by
  by_cases hs : startsWithL (obChar :: pkg ++ [cbChar]) cs = true
  · rw [litProbe, if_pos hs] at h
    obtain ⟨rest, hcs⟩ := (startsWithL_iff _ cs).mp hs
    have hlen : cs.length = pkg.length + 2 + rest.length := by
      rw [hcs]; simp; omega
    have hdrop : cs.drop (pkg.length + 2) = rest := by
      rw [hcs]
      exact List.drop_left' (by simp)
    rcases rest with _ | ⟨c, t'⟩ <;> simp only [hdrop] at h
    · cases h
      simp only [List.length_nil] at hlen ⊢
      omega
    · by_cases hc : c = nlChar
      · rw [if_pos hc] at h
        cases h
        simp only [List.length_cons] at hlen
        omega
      · rw [if_neg hc] at h
        cases h
        simp only [List.length_cons] at hlen ⊢
        omega
  · rw [litProbe, if_neg hs] at h
    cases h

theorem litProbe_starts (pkg cs t : List Char) (h : litProbe pkg cs = some t) :
    startsWithL (obChar :: pkg ++ [cbChar]) cs = true := by
  by_cases hs : startsWithL (obChar :: pkg ++ [cbChar]) cs = true
  · exact hs
  · rw [litProbe, if_neg hs] at h
    cases h

theorem lazyOptLit_length_lt (pkg : List Char) :
    ∀ (cs t : List Char), lazyOptLit pkg cs = some t → t.length < cs.length := by
  intro cs
  induction cs with
  | nil => intro t h; cases h
  | cons c r ih =>
    intro t h
    rcases hp : (if c = ']' then litProbe pkg r else none) with _ | t'
    · simp only [lazyOptLit, hp] at h
      by_cases hd : dotChar c = true
      · rw [if_pos hd] at h
        have := ih t h
        simp only [List.length_cons]
        omega
      · rw [if_neg hd] at h; cases h
    · simp only [lazyOptLit, hp] at h
      cases h
      have hc : c = ']' := by
        by_contra hcc; rw [if_neg hcc] at hp; cases hp
      rw [if_pos hc] at hp
      have := litProbe_length_lt pkg r t hp
      simp only [List.length_cons]
      omega

/-- Occurrence of the braced name inside a successful bracket part. -/
theorem lazyOptLit_occurrence (pkg : List Char) :
    ∀ (cs t : List Char), lazyOptLit pkg cs = some t →
      ∃ q, startsWithL (obChar :: pkg ++ [cbChar]) (cs.drop q) = true := by
  intro cs
  induction cs with
  | nil => intro t h; cases h
  | cons c r ih =>
    intro t h
    rcases hp : (if c = ']' then litProbe pkg r else none) with _ | t'
    · simp only [lazyOptLit, hp] at h
      by_cases hd : dotChar c = true
      · rw [if_pos hd] at h
        obtain ⟨q, hq⟩ := ih t h
        exact ⟨q + 1, by simpa using hq⟩
      · rw [if_neg hd] at h; cases h
    · simp only [lazyOptLit, hp] at h
      cases h
      have hc : c = ']' := by
        by_contra hcc; rw [if_neg hcc] at hp; cases hp
      rw [if_pos hc] at hp
      exact ⟨1, by simpa using litProbe_starts pkg r t hp⟩

theorem removeMatchAt_length_lt (pkg cs t : List Char)
    (h : removeMatchAt pkg cs = some t) :
    t.length < cs.length := by
  by_cases hs : startsWithL usepkgLit cs = true
  · rw [removeMatchAt, if_pos hs] at h
    have hcs := startsWithL_drop usepkgLit cs hs
    have hlen : cs.length = usepkgLit.length + (cs.drop usepkgLit.length).length := by
      conv_lhs => rw [hcs]
      simp
    rcases hdrop : cs.drop usepkgLit.length with _ | ⟨c, r2⟩
    · simp only [hdrop] at h; cases h
    · simp only [hdrop] at h
      rw [hdrop] at hlen
      by_cases hc : c = '['
      · rw [if_pos hc] at h
        have := lazyOptLit_length_lt pkg r2 t h
        simp only [List.length_cons] at hlen
        simp [usepkgLit] at hlen
        omega
      · rw [if_neg hc] at h
        have := litProbe_length_lt pkg (c :: r2) t h
        simp only [List.length_cons] at hlen this
        simp [usepkgLit] at hlen
        omega
  · rw [removeMatchAt, if_neg hs] at h
    cases h

/-- A successful removal match contains the braced package name. -/
theorem removeMatchAt_contains (pkg cs t : List Char)
    (h : removeMatchAt pkg cs = some t) :
    containsSub (obChar :: pkg ++ [cbChar]) cs = true := by
  by_cases hs : startsWithL usepkgLit cs = true
  · rw [removeMatchAt, if_pos hs] at h
    have hcs := startsWithL_drop usepkgLit cs hs
    rcases hdrop : cs.drop usepkgLit.length with _ | ⟨c, r2⟩
    · simp only [hdrop] at h; cases h
    · simp only [hdrop] at h
      rw [containsSub_iff]
      by_cases hc : c = '['
      · rw [if_pos hc] at h
        obtain ⟨q, hq⟩ := lazyOptLit_occurrence pkg r2 t h
        refine ⟨usepkgLit.length + 1 + q, ?_⟩
        have : cs.drop (usepkgLit.length + 1 + q) = r2.drop q := by
          conv_lhs => rw [hcs, hdrop]
          rw [← List.drop_drop, ← List.drop_drop]
          rw [List.drop_left]
          subst hc
          simp
        rw [this]
        exact hq
      · rw [if_neg hc] at h
        refine ⟨usepkgLit.length, ?_⟩
        rw [hdrop]
        exact litProbe_starts pkg _ t h
  · rw [removeMatchAt, if_neg hs] at h
    cases h

/-- The global replace of the removal regex, fuelled by the input length:
remove every left-most non-overlapping match (JavaScript
`String.prototype.replace` with a `g`-flagged regex and empty
replacement). -/
def replaceGo (pkg : List Char) : Nat → List Char → List Char
  | 0, cs => cs
  | _ + 1, [] => []
  | fuel + 1, c :: r =>
    match removeMatchAt pkg (c :: r) with
    | some t => replaceGo pkg fuel t
    | none => c :: replaceGo pkg fuel r

/-- Remove every match of the removal regex from the input. -/
def replaceAllRemove (pkg cs : List Char) : List Char := replaceGo pkg cs.length cs

/-- `removePackage` from the source, as the content transformation it
performs on the active file. -/
def removePackage (pkg content : List Char) : List Char := replaceAllRemove pkg content

theorem replaceGo_fuel (pkg : List Char) (fuel : Nat) :
    ∀ (cs : List Char), cs.length ≤ fuel → ∀ (fuel' : Nat), cs.length ≤ fuel' →
      replaceGo pkg fuel cs = replaceGo pkg fuel' cs := by
  induction fuel with
  | zero =>
    intro cs h1 fuel' h2
    have hnil : cs = [] := List.length_eq_zero.mp (Nat.le_zero.mp h1)
    subst hnil
    cases fuel' <;> rfl
  | succ f ih =>
    intro cs h1 fuel' h2
    cases cs with
    | nil => cases fuel' <;> rfl
    | cons c r =>
      cases fuel' with
      | zero => simp at h2
      | succ f' =>
        simp only [replaceGo]
        rcases hm : removeMatchAt pkg (c :: r) with _ | t
        · simp only [List.length_cons] at h1 h2
          show c :: replaceGo pkg f r = c :: replaceGo pkg f' r
          rw [ih r (by omega) f' (by omega)]
        · have hlt := removeMatchAt_length_lt pkg _ _ hm
          simp only [List.length_cons] at h1 h2 hlt
          show replaceGo pkg f t = replaceGo pkg f' t
          exact ih t (by omega) f' (by omega)

theorem replaceAllRemove_cons (pkg : List Char) (c : Char) (r : List Char) :
    replaceAllRemove pkg (c :: r)
      = match removeMatchAt pkg (c :: r) with
        | some t => replaceAllRemove pkg t
        | none => c :: replaceAllRemove pkg r := by
  show replaceGo pkg ((c :: r).length) (c :: r) = _
  simp only [List.length_cons, replaceGo]
  rcases hm : removeMatchAt pkg (c :: r) with _ | t
  · show c :: replaceGo pkg r.length r = c :: replaceAllRemove pkg r
    rfl
  · have hlt := removeMatchAt_length_lt pkg _ _ hm
    simp only [List.length_cons] at hlt
    show replaceGo pkg r.length t = replaceAllRemove pkg t
    rw [replaceGo_fuel pkg r.length t (by omega) t.length (by omega)]
    rfl

/-- If the braced package name does not occur in the content, the removal
regex matches nowhere and the global replace is the identity. -/
theorem replaceAllRemove_id (pkg content : List Char)
    (h : containsSub (obChar :: pkg ++ [cbChar]) content = false) :
    replaceAllRemove pkg content = content := by
  induction content with
  | nil => rfl
  | cons c r ih =>
    rw [replaceAllRemove_cons]
    rcases hm : removeMatchAt pkg (c :: r) with _ | t
    · simp only [containsSub, Bool.or_eq_false_iff] at h
      rw [ih h.2]
    · have hcontra := removeMatchAt_contains pkg _ t hm
      rw [h] at hcontra
      cases hcontra

/-- C8: when a package name occurs only inside a comma-separated
`\usepackage` directive — so that the braced text of the name alone occurs
nowhere in the document — `removePackage` leaves the document completely
unchanged, even though `getInstalledPackages` reports the package as
installed. -/
theorem removePackage_comma_list (content pkg : List Char)
    (hw : ∀ c ∈ pkg, wordChar c = true)
    (h1 : pkg ∈ getInstalledPackages content)
    (h2 : containsSub (obChar :: pkg ++ [cbChar]) content = false) :
    removePackage pkg content = content ∧ pkg ∈ getInstalledPackages content :=
  ⟨replaceAllRemove_id pkg content h2, h1⟩

/-- C8 witness: the default document's comma-separated directive
`\usepackage` of `amsmath,graphicx`: removing `amsmath` changes nothing
while the package list reports it installed. -/
theorem removePackage_comma_list_witness :
    removePackage "amsmath".data
        (usepkgLit ++ obChar :: "amsmath,graphicx".data ++ [cbChar])
      = usepkgLit ++ obChar :: "amsmath,graphicx".data ++ [cbChar]
    ∧ "amsmath".data ∈ getInstalledPackages
        (usepkgLit ++ obChar :: "amsmath,graphicx".data ++ [cbChar]) :=
  removePackage_comma_list
    (usepkgLit ++ obChar :: "amsmath,graphicx".data ++ [cbChar])
    "amsmath".data (by decide) (by decide) (by decide)

/-! ## `addPackage` -/

/-- The insertion-index loop of `addPackage`: one past the last line
containing `\usepackage`, else one past the first line containing
`\documentclass`, else the top of the file. -/
def insertIndexLoop : List (List Char) → Nat → Nat → Nat
  | [], _, acc => acc
  | l :: ls, i, acc =>
    insertIndexLoop ls (i + 1)
      (if containsSub usepkgLit l then i + 1
       else if containsSub docClassLit l ∧ acc = 0 then i + 1
       else acc)

/-- The index at which `addPackage` splices in the new directive line. -/
def insertIndex (lines : List (List Char)) : Nat := insertIndexLoop lines 0 0

/-- The directive line inserted by `addPackage`. -/
def pkgLine (pkg : List Char) : List Char := usepkgLit ++ obChar :: pkg ++ [cbChar]

/-- `addPackage` from the source: split the content into lines, compute the
insertion index, splice in the new `\usepackage` line, and re-join with
newlines. -/
def addPackage (pkg content : List Char) : List Char :=
  let lines := splitOnChar nlChar content
  let k := insertIndex lines
  joinSep nlChar (lines.take k ++ pkgLine pkg :: lines.drop k)

/-- The text of the first `k` lines, each followed by its newline. -/
def prefixText (sep : Char) : List (List Char) → Nat → List Char
  | _, 0 => []
  | [], _ + 1 => []
  | l :: ls, k + 1 => l ++ sep :: prefixText sep ls k

theorem joinSep_cons (sep : Char) (l : List Char) (ls : List (List Char)) (h : ls ≠ []) :
    joinSep sep (l :: ls) = l ++ sep :: joinSep sep ls := by
  cases ls with
  | nil => exact absurd rfl h
  | cons l2 ls2 => rfl

theorem joinSep_split (sep : Char) :
    ∀ (lines : List (List Char)) (k : Nat), k < lines.length →
      joinSep sep lines = prefixText sep lines k ++ joinSep sep (lines.drop k) := by
  intro lines
  induction lines with
  | nil => intro k hk; simp at hk
  | cons l ls ih =>
    intro k hk
    cases k with
    | zero => rfl
    | succ k' =>
      simp only [List.length_cons, Nat.succ_lt_succ_iff] at hk
      have hls : ls ≠ [] := by
        intro hnil
        rw [hnil] at hk
        simp at hk
      rw [joinSep_cons sep l ls hls, prefixText, List.drop_succ_cons, ih k' hk]
      simp

theorem joinSep_insert (sep : Char) (ins : List Char) :
    ∀ (lines : List (List Char)) (k : Nat), k < lines.length →
      joinSep sep (lines.take k ++ ins :: lines.drop k)
        = prefixText sep lines k ++ (ins ++ sep :: joinSep sep (lines.drop k)) := by
  intro lines
  induction lines with
  | nil => intro k hk; simp at hk
  | cons l ls ih =>
    intro k hk
    cases k with
    | zero =>
      simp only [List.take_zero, List.drop_zero, List.nil_append, prefixText]
      rw [joinSep_cons sep ins (l :: ls) (by simp)]
    | succ k' =>
      simp only [List.length_cons, Nat.succ_lt_succ_iff] at hk
      simp only [List.take_succ_cons, List.drop_succ_cons, List.cons_append, prefixText]
      have hne : ls.take k' ++ ins :: ls.drop k' ≠ [] := by simp
      rw [joinSep_cons sep l _ hne, ih k' hk]
      simp

theorem prefixText_ends (sep : Char) :
    ∀ (lines : List (List Char)) (k : Nat),
      prefixText sep lines k = [] ∨ ∃ P', prefixText sep lines k = P' ++ [sep] := by
  intro lines
  induction lines with
  | nil => intro k; cases k <;> exact Or.inl rfl
  | cons l ls ih =>
    intro k
    cases k with
    | zero => exact Or.inl rfl
    | succ k' =>
      rcases ih k' with h | ⟨P', hP'⟩
      · refine Or.inr ⟨l, ?_⟩
        rw [prefixText, h]
      · refine Or.inr ⟨l ++ sep :: P', ?_⟩
        rw [prefixText, hP']
        simp

/-! ## Locality of the scan matcher

To reason about `addPackage` splicing a line into a document we must know
when a match starting in the text before the insertion point could see past
it.  A position is "hungry" when the matcher, run on the prefix alone,
would run past the prefix's final newline (an unterminated brace group).
`noHungry` says no position of the prefix is hungry; it holds for every
well-formed preamble. -/

/-- Would the brace part of the scan regex, applied here, consume past the
end of this input when more text is appended? -/
def hungryBrace : List Char → Bool
  | [] => true
  | c :: r => if c = obChar ∧ cbChar ∉ r then true else false

/-- Would the bracket part of the scan regex, applied here, succeed with a
longer input where it fails or matches shorter on this one? -/
def hungryLazy : List Char → Bool
  | [] => true
  | c :: r =>
    match (if c = ']' then braceProbe r else none) with
    | some _ => false
    | none =>
      if c = ']' ∧ hungryBrace r then true
      else if dotChar c then hungryLazy r else false

/-- `hungryLazy`/`hungryBrace` dispatched the way `matchAfterLit` does. -/
def hungryAfter : List Char → Bool
  | [] => true
  | c :: r2 => if c = '[' then hungryLazy r2 else hungryBrace (c :: r2)

/-- Is the scan matcher hungry at the start of this input? -/
def hungryAt (cs : List Char) : Bool :=
  if startsWithL usepkgLit cs then hungryAfter (cs.drop usepkgLit.length) else false

/-- No position of the input is hungry. -/
def noHungry : List Char → Bool
  | [] => true
  | c :: r => !hungryAt (c :: r) && noHungry r

theorem braceProbe_extend_some (cs X g t : List Char)
    (h : braceProbe cs = some (g, t)) :
    braceProbe (cs ++ X) = some (g, t ++ X) := by
  obtain ⟨he, hg, hm⟩ := braceProbe_sound cs g t h
  rw [he]
  have hassoc : (obChar :: g ++ cbChar :: t) ++ X = obChar :: g ++ cbChar :: (t ++ X) := by
    simp
  rw [hassoc]
  exact braceProbe_self g hg hm (t ++ X)

theorem braceProbe_extend_none (cs X : List Char)
    (hh : hungryBrace cs = false) (h : braceProbe cs = none) :
    braceProbe (cs ++ X) = none := by
  cases cs with
  | nil => exact absurd hh (by simp [hungryBrace])
  | cons c r =>
    by_cases hc : c = obChar
    · subst hc
      have hcb : cbChar ∈ r := by
        by_contra hmem
        have htrue : hungryBrace (obChar :: r) = true := by
          simp [hungryBrace, hmem]
        rw [htrue] at hh
        cases hh
      rcases hs : braceSplit r with _ | ⟨g', t'⟩
      · exact absurd ((braceSplit_eq_none r).mp hs) (by simpa using hcb)
      · obtain ⟨hre, hgm⟩ := braceSplit_sound r g' t' hs
        have hg' : g' = [] := by
          by_contra hgne
          simp [braceProbe, hs, hgne] at h
        subst hg'
        simp only [List.nil_append] at hre
        subst hre
        simp [braceProbe, braceSplit]
    · simp [braceProbe, hc]

theorem hungryLazy_rsq_some (r g t : List Char) (hp : braceProbe r = some (g, t)) :
    hungryLazy (']' :: r) = false := by
  simp [hungryLazy, hp]

theorem hungryLazy_rsq_none (r : List Char) (hp : braceProbe r = none) :
    hungryLazy (']' :: r) = if hungryBrace r then true else hungryLazy r := by
  by_cases hb : hungryBrace r = true <;>
    simp [hungryLazy, hp, hb, (by decide : dotChar ']' = true)]

theorem hungryLazy_ne (c : Char) (r : List Char) (hc : c ≠ ']') :
    hungryLazy (c :: r) = if dotChar c then hungryLazy r else false := by
  simp [hungryLazy, hc]

theorem lazyOpt_extend (X : List Char) :
    ∀ (cs : List Char), hungryLazy cs = false →
      (∀ i g t, lazyOpt cs = some (i, g, t) → lazyOpt (cs ++ X) = some (i, g, t ++ X))
      ∧ (lazyOpt cs = none → lazyOpt (cs ++ X) = none) := by
  intro cs
  induction cs with
  | nil => intro hh; exact absurd hh (by simp [hungryLazy])
  | cons c r ih =>
    intro hh
    by_cases hc : c = ']'
    · subst hc
      rcases hp : braceProbe r with _ | ⟨g0, t0⟩
      · rw [hungryLazy_rsq_none r hp] at hh
        have hb : hungryBrace r = false := by
          by_contra hbb
          rw [Bool.not_eq_false] at hbb
          rw [if_pos hbb] at hh
          cases hh
        rw [if_neg (by simp [hb])] at hh
        have hpx : braceProbe (r ++ X) = none := braceProbe_extend_none r X hb hp
        obtain ⟨ihs, ihn⟩ := ih hh
        constructor
        · intro i g t hsome
          rw [lazyOpt_cons_rsq] at hsome
          simp only [hp] at hsome
          rcases hl : lazyOpt r with _ | ⟨i', g', t'⟩
          · simp only [hl] at hsome; cases hsome
          · simp only [hl] at hsome
            cases hsome
            rw [List.cons_append, lazyOpt_cons_rsq]
            simp only [hpx, ihs i' g t hl]
        · intro hnone
          rw [lazyOpt_cons_rsq] at hnone
          simp only [hp] at hnone
          rcases hl : lazyOpt r with _ | ⟨i', g', t'⟩
          · rw [List.cons_append, lazyOpt_cons_rsq]
            simp only [hpx, ihn hl]
          · simp only [hl] at hnone; cases hnone
      · have hpx := braceProbe_extend_some r X g0 t0 hp
        constructor
        · intro i g t hsome
          rw [lazyOpt_cons_rsq] at hsome
          simp only [hp] at hsome
          cases hsome
          rw [List.cons_append, lazyOpt_cons_rsq]
          simp only [hpx]
        · intro hnone
          rw [lazyOpt_cons_rsq] at hnone
          simp only [hp] at hnone
          cases hnone
    · rw [hungryLazy_ne c r hc] at hh
      by_cases hd : dotChar c = true
      · rw [if_pos hd] at hh
        obtain ⟨ihs, ihn⟩ := ih hh
        constructor
        · intro i g t hsome
          rw [lazyOpt_cons_ne c r hc hd] at hsome
          rcases hl : lazyOpt r with _ | ⟨i', g', t'⟩
          · simp only [hl] at hsome; cases hsome
          · simp only [hl] at hsome
            cases hsome
            rw [List.cons_append, lazyOpt_cons_ne c _ hc hd]
            simp only [ihs i' g t hl]
        · intro hnone
          rw [lazyOpt_cons_ne c r hc hd] at hnone
          rcases hl : lazyOpt r with _ | ⟨i', g', t'⟩
          · rw [List.cons_append, lazyOpt_cons_ne c _ hc hd]
            simp only [ihn hl]
          · simp only [hl] at hnone; cases hnone
      · have hdf : dotChar c = false := by
          revert hd; cases dotChar c <;> simp
        constructor
        · intro i g t hsome
          rw [lazyOpt_cons_nodot c r hdf] at hsome
          cases hsome
        · intro _
          rw [List.cons_append]
          exact lazyOpt_cons_nodot c _ hdf

theorem startsWithL_ends_nl (needle : List Char) (hn : nlChar ∉ needle) :
    ∀ (B' X : List Char),
      startsWithL needle ((B' ++ [nlChar]) ++ X) = startsWithL needle (B' ++ [nlChar]) := by
  induction needle with
  | nil => intro B' X; rfl
  | cons a as ih =>
    intro B' X
    have ha : a ≠ nlChar := fun hx => hn (hx ▸ List.mem_cons_self a as)
    have hn' : nlChar ∉ as := fun hx => hn (List.mem_cons_of_mem a hx)
    cases B' with
    | nil =>
      simp only [List.nil_append, List.singleton_append, List.cons_append, startsWithL]
      have : (a == nlChar) = false := by
        simp [ha]
      simp [this]
    | cons b B'' =>
      have hstep : ∀ (bs : List Char),
          startsWithL (a :: as) (b :: bs) = (a == b && startsWithL as bs) :=
        fun bs => rfl
      simp only [List.cons_append]
      rw [hstep, hstep, ih hn' B'' X]

theorem matchAfterLit_extend (X : List Char) (D : List Char)
    (hDnl : ∃ D', D = D' ++ [nlChar]) (hh : hungryAfter D = false) :
    (∀ after g tail, matchAfterLit D = some (after, g, tail) →
        matchAfterLit (D ++ X) = some (after, g, tail ++ X))
    ∧ (matchAfterLit D = none → matchAfterLit (D ++ X) = none) := by
  obtain ⟨D', hD'⟩ := hDnl
  rcases D with _ | ⟨c, r2⟩
  · exact absurd hD'.symm (by simp)
  · by_cases hc : c = '['
    · subst hc
      simp only [hungryAfter, if_pos rfl] at hh
      obtain ⟨les, len⟩ := lazyOpt_extend X r2 hh
      constructor
      · intro after g tail hm
        rw [matchAfterLit, if_pos rfl] at hm
        rcases hl : lazyOpt r2 with _ | ⟨inner, g', t'⟩
        · simp only [hl] at hm; cases hm
        · simp only [hl] at hm
          cases hm
          simp only [List.cons_append]
          rw [matchAfterLit, if_pos rfl]
          simp only [les inner g tail hl]
          simp
      · intro hm
        rw [matchAfterLit, if_pos rfl] at hm
        rcases hl : lazyOpt r2 with _ | ⟨inner, g', t'⟩
        · simp only [List.cons_append]
          rw [matchAfterLit, if_pos rfl]
          simp only [len hl]
        · simp only [hl] at hm; cases hm
    · simp only [hungryAfter, if_neg hc] at hh
      constructor
      · intro after g tail hm
        rw [matchAfterLit, if_neg hc] at hm
        rcases hp : braceProbe (c :: r2) with _ | ⟨g', t'⟩
        · simp only [hp] at hm; cases hm
        · simp only [hp] at hm
          cases hm
          have hx := braceProbe_extend_some (c :: r2) X g tail hp
          simp only [List.cons_append] at hx ⊢
          rw [matchAfterLit, if_neg hc]
          simp only [hx]
          simp
      · intro hm
        rw [matchAfterLit, if_neg hc] at hm
        rcases hp : braceProbe (c :: r2) with _ | ⟨g', t'⟩
        · have hx := braceProbe_extend_none (c :: r2) X hh hp
          simp only [List.cons_append] at hx ⊢
          rw [matchAfterLit, if_neg hc]
          simp only [hx]
        · simp only [hp] at hm; cases hm

theorem matchUsepkgAt_extend (B' X : List Char)
    (hh : hungryAt (B' ++ [nlChar]) = false) :
    (∀ m, matchUsepkgAt (B' ++ [nlChar]) = some m →
        matchUsepkgAt ((B' ++ [nlChar]) ++ X) = some ⟨m.full, m.group, m.rest ++ X⟩)
    ∧ (matchUsepkgAt (B' ++ [nlChar]) = none →
        matchUsepkgAt ((B' ++ [nlChar]) ++ X) = none) := by
  have hnl : nlChar ∉ usepkgLit := by decide
  have hsw := startsWithL_ends_nl usepkgLit hnl B' X
  by_cases hs : startsWithL usepkgLit (B' ++ [nlChar]) = true
  · have hcs := startsWithL_drop usepkgLit _ hs
    rw [hungryAt, if_pos hs] at hh
    have hDne : (B' ++ [nlChar]).drop usepkgLit.length ≠ [] := by
      intro hnil
      have hBeq : B' ++ [nlChar] = usepkgLit := by
        conv_lhs => rw [hcs]
        rw [hnil]
        simp
      have hmem : nlChar ∈ usepkgLit := by
        rw [← hBeq]
        simp
      exact hnl hmem
    have hDnl : ∃ D₀, (B' ++ [nlChar]).drop usepkgLit.length = D₀ ++ [nlChar] := by
      by_cases hle : usepkgLit.length ≤ B'.length
      · exact ⟨B'.drop usepkgLit.length, by rw [List.drop_append_of_le_length hle]⟩
      · exfalso
        apply hDne
        have hlen : ((B' ++ [nlChar]).drop usepkgLit.length).length = 0 := by
          rw [List.length_drop]
          have h11 : usepkgLit.length = 11 := by decide
          simp only [List.length_append, List.length_singleton]
          omega
        exact List.length_eq_zero.mp hlen
    have hBX : ((B' ++ [nlChar]) ++ X).drop usepkgLit.length
        = (B' ++ [nlChar]).drop usepkgLit.length ++ X := by
      conv_lhs => rw [hcs]
      rw [List.append_assoc, List.drop_left]
    obtain ⟨hes, hen⟩ := matchAfterLit_extend X _ hDnl hh
    constructor
    · intro m hm
      rw [matchUsepkgAt, if_pos hs] at hm
      rcases hal : matchAfterLit ((B' ++ [nlChar]).drop usepkgLit.length)
          with _ | ⟨after, g, tail⟩
      · simp only [hal] at hm; cases hm
      · simp only [hal] at hm
        cases hm
        rw [matchUsepkgAt, if_pos (by rw [hsw]; exact hs), hBX]
        simp only [hes after g tail hal]
    · intro hm
      rw [matchUsepkgAt, if_pos hs] at hm
      rcases hal : matchAfterLit ((B' ++ [nlChar]).drop usepkgLit.length)
          with _ | ⟨after, g, tail⟩
      · rw [matchUsepkgAt, if_pos (by rw [hsw]; exact hs), hBX]
        simp only [hen hal]
      · simp only [hal] at hm; cases hm
  · constructor
    · intro m hm
      rw [matchUsepkgAt, if_neg hs] at hm
      cases hm
    · intro _
      rw [matchUsepkgAt, if_neg (by rw [hsw]; exact hs)]

theorem noHungry_head (cs : List Char) (h : noHungry cs = true) : hungryAt cs = false := by
  cases cs with
  | nil => decide
  | cons c r =>
    simp only [noHungry, Bool.and_eq_true, Bool.not_eq_true'] at h
    exact h.1

theorem noHungry_tail (c : Char) (r : List Char) (h : noHungry (c :: r) = true) :
    noHungry r = true := by
  simp only [noHungry, Bool.and_eq_true] at h
  exact h.2

theorem noHungry_drop (cs : List Char) (n : Nat) (h : noHungry cs = true) :
    noHungry (cs.drop n) = true := by
  induction cs generalizing n with
  | nil => simpa using h
  | cons c r ih =>
    cases n with
    | zero => exact h
    | succ n' => exact ih n' (noHungry_tail c r h)

/-! ## Locality of the removal matcher

With a word-character package name, the removal regex contains no newline,
so a match starting in an ends-with-newline prefix can never see past the
prefix; no hungry condition is needed. -/

theorem braced_no_nl (pkg : List Char) (hn : nlChar ∉ pkg) :
    nlChar ∉ obChar :: pkg ++ [cbChar] := by
  intro hx
  rcases List.mem_cons.mp hx with h1 | h2
  · exact absurd h1 (by decide)
  · rcases List.mem_append.mp h2 with h3 | h4
    · exact hn h3
    · simp only [List.mem_singleton] at h4
      exact absurd h4 (by decide)

theorem litProbe_extend_none (pkg B' X : List Char) (hn : nlChar ∉ pkg)
    (h : litProbe pkg (B' ++ [nlChar]) = none) :
    litProbe pkg ((B' ++ [nlChar]) ++ X) = none := by
  have hsw := startsWithL_ends_nl (obChar :: pkg ++ [cbChar]) (braced_no_nl pkg hn) B' X
  by_cases hs : startsWithL (obChar :: pkg ++ [cbChar]) (B' ++ [nlChar]) = true
  · exfalso
    rw [litProbe, if_pos hs] at h
    rcases hd : (B' ++ [nlChar]).drop (pkg.length + 2) with _ | ⟨c, t⟩ <;>
      simp only [hd] at h
    · cases h
    · by_cases hcn : c = nlChar
      · rw [if_pos hcn] at h; cases h
      · rw [if_neg hcn] at h; cases h
  · rw [litProbe, if_neg (by rw [hsw]; exact hs)]

theorem litProbe_extend_some (pkg B' X t : List Char) (hn : nlChar ∉ pkg)
    (h : litProbe pkg (B' ++ [nlChar]) = some t) :
    litProbe pkg ((B' ++ [nlChar]) ++ X) = some (t ++ X) := by
  have hbr := braced_no_nl pkg hn
  have hsw := startsWithL_ends_nl (obChar :: pkg ++ [cbChar]) hbr B' X
  by_cases hs : startsWithL (obChar :: pkg ++ [cbChar]) (B' ++ [nlChar]) = true
  · have hcs := startsWithL_drop (obChar :: pkg ++ [cbChar]) _ hs
    have hblen : (obChar :: pkg ++ [cbChar]).length = pkg.length + 2 := by
      simp
    rw [litProbe, if_pos hs] at h
    rcases hrest : (B' ++ [nlChar]).drop (pkg.length + 2) with _ | ⟨c, t'⟩
    · exfalso
      have hBeq : B' ++ [nlChar] = obChar :: pkg ++ [cbChar] := by
        conv_lhs => rw [hcs]
        rw [hblen, hrest]
        simp
      have hmem : nlChar ∈ obChar :: pkg ++ [cbChar] := by
        rw [← hBeq]; simp
      exact hbr hmem
    · simp only [hrest] at h
      have hdropX : ((B' ++ [nlChar]) ++ X).drop (pkg.length + 2) = c :: (t' ++ X) := by
        conv_lhs => rw [hcs, hblen, hrest]
        rw [List.append_assoc]
        rw [List.drop_left' hblen]
        rfl
      rw [litProbe, if_pos (by rw [hsw]; exact hs)]
      rw [hdropX]
      by_cases hcn : c = nlChar
      · rw [if_pos hcn] at h
        cases h
        simp [hcn]
      · rw [if_neg hcn] at h
        cases h
        simp [hcn]
  · rw [litProbe, if_neg hs] at h
    cases h

theorem lazyOptLit_cons_rsq (pkg r : List Char) :
    lazyOptLit pkg (']' :: r)
      = match litProbe pkg r with
        | some t => some t
        | none => lazyOptLit pkg r := by
  rcases hp : litProbe pkg r with _ | t <;>
    simp [lazyOptLit, hp, (by decide : dotChar ']' = true)]

theorem lazyOptLit_cons_ne (pkg : List Char) (c : Char) (r : List Char)
    (hc : c ≠ ']') (hd : dotChar c = true) :
    lazyOptLit pkg (c :: r) = lazyOptLit pkg r := by
  simp [lazyOptLit, hc, hd]

theorem lazyOptLit_cons_nodot (pkg : List Char) (c : Char) (r : List Char)
    (hd : dotChar c = false) :
    lazyOptLit pkg (c :: r) = none := by
  have hc : c ≠ ']' := by
    intro hcc
    subst hcc
    exact absurd hd (by decide)
  simp [lazyOptLit, hc, hd]

theorem lazyOptLit_extend (pkg X : List Char) (hn : nlChar ∉ pkg) :
    ∀ (r' : List Char),
      (∀ t, lazyOptLit pkg (r' ++ [nlChar]) = some t →
          lazyOptLit pkg ((r' ++ [nlChar]) ++ X) = some (t ++ X))
      ∧ (lazyOptLit pkg (r' ++ [nlChar]) = none →
          lazyOptLit pkg ((r' ++ [nlChar]) ++ X) = none) := by
  intro r'
  induction r' with
  | nil =>
    have hnil : lazyOptLit pkg ([] ++ [nlChar]) = none := by
      simp [lazyOptLit, (by decide : ¬((nlChar : Char) = ']')),
        (by decide : dotChar nlChar = false)]
    constructor
    · intro t h
      rw [hnil] at h
      cases h
    · intro _
      simp [lazyOptLit, (by decide : ¬((nlChar : Char) = ']')),
        (by decide : dotChar nlChar = false)]
  | cons c r'' ih =>
    obtain ⟨ihs, ihn⟩ := ih
    by_cases hc : c = ']'
    · subst hc
      rcases hp : litProbe pkg (r'' ++ [nlChar]) with _ | t0
      · have hpx := litProbe_extend_none pkg r'' X hn hp
        constructor
        · intro t h
          simp only [List.cons_append] at h ⊢
          rw [lazyOptLit_cons_rsq] at h
          simp only [hp] at h
          rw [lazyOptLit_cons_rsq]
          simp only [hpx]
          exact ihs t h
        · intro h
          simp only [List.cons_append] at h ⊢
          rw [lazyOptLit_cons_rsq] at h
          simp only [hp] at h
          rw [lazyOptLit_cons_rsq]
          simp only [hpx]
          exact ihn h
      · have hpx := litProbe_extend_some pkg r'' X t0 hn hp
        constructor
        · intro t h
          simp only [List.cons_append] at h ⊢
          rw [lazyOptLit_cons_rsq] at h
          simp only [hp] at h
          cases h
          rw [lazyOptLit_cons_rsq]
          simp only [hpx]
        · intro h
          simp only [List.cons_append] at h
          rw [lazyOptLit_cons_rsq] at h
          simp only [hp] at h
          cases h
    · by_cases hd : dotChar c = true
      · constructor
        · intro t h
          simp only [List.cons_append] at h ⊢
          rw [lazyOptLit_cons_ne pkg c _ hc hd] at h
          rw [lazyOptLit_cons_ne pkg c _ hc hd]
          exact ihs t h
        · intro h
          simp only [List.cons_append] at h ⊢
          rw [lazyOptLit_cons_ne pkg c _ hc hd] at h
          rw [lazyOptLit_cons_ne pkg c _ hc hd]
          exact ihn h
      · have hdf : dotChar c = false := by
          revert hd; cases dotChar c <;> simp
        constructor
        · intro t h
          simp only [List.cons_append] at h
          rw [lazyOptLit_cons_nodot pkg c _ hdf] at h
          cases h
        · intro _
          simp only [List.cons_append]
          exact lazyOptLit_cons_nodot pkg c _ hdf

theorem removeMatchAt_eq (pkg cs : List Char) (c : Char) (r2 : List Char)
    (hs : startsWithL usepkgLit cs = true)
    (hd : cs.drop usepkgLit.length = c :: r2) :
    removeMatchAt pkg cs
      = if c = '[' then lazyOptLit pkg r2 else litProbe pkg (c :: r2) := by
  rw [removeMatchAt, if_pos hs, hd]

theorem removeMatchAt_extend (pkg B' X : List Char) (hn : nlChar ∉ pkg) :
    (∀ t, removeMatchAt pkg (B' ++ [nlChar]) = some t →
        removeMatchAt pkg ((B' ++ [nlChar]) ++ X) = some (t ++ X))
    ∧ (removeMatchAt pkg (B' ++ [nlChar]) = none →
        removeMatchAt pkg ((B' ++ [nlChar]) ++ X) = none) := by
  have hnl : nlChar ∉ usepkgLit := by decide
  have hsw := startsWithL_ends_nl usepkgLit hnl B' X
  by_cases hs : startsWithL usepkgLit (B' ++ [nlChar]) = true
  · have hcs := startsWithL_drop usepkgLit _ hs
    have hDne : (B' ++ [nlChar]).drop usepkgLit.length ≠ [] := by
      intro hnil
      have hBeq : B' ++ [nlChar] = usepkgLit := by
        conv_lhs => rw [hcs]
        rw [hnil]
        simp
      have hmem : nlChar ∈ usepkgLit := by
        rw [← hBeq]
        simp
      exact hnl hmem
    have hBX : ((B' ++ [nlChar]) ++ X).drop usepkgLit.length
        = (B' ++ [nlChar]).drop usepkgLit.length ++ X := by
      conv_lhs => rw [hcs]
      rw [List.append_assoc, List.drop_left]
    rcases hDcase : (B' ++ [nlChar]).drop usepkgLit.length with _ | ⟨c, r2⟩
    · exact absurd hDcase hDne
    · have hDnl : ∃ D₀, c :: r2 = D₀ ++ [nlChar] := by
        by_cases hle : usepkgLit.length ≤ B'.length
        · exact ⟨B'.drop usepkgLit.length, by
            rw [← hDcase, List.drop_append_of_le_length hle]⟩
        · exfalso
          apply hDne
          have hlen : ((B' ++ [nlChar]).drop usepkgLit.length).length = 0 := by
            rw [List.length_drop]
            have h11 : usepkgLit.length = 11 := by decide
            simp only [List.length_append, List.length_singleton]
            omega
          exact List.length_eq_zero.mp hlen
      obtain ⟨D₀, hD₀⟩ := hDnl
      have hsX : startsWithL usepkgLit ((B' ++ [nlChar]) ++ X) = true := by
        rw [hsw]; exact hs
      have hdX : ((B' ++ [nlChar]) ++ X).drop usepkgLit.length = c :: (r2 ++ X) := by
        rw [hBX, hDcase]
        simp
      by_cases hc : c = '['
      · subst hc
        obtain ⟨r2', hr2'⟩ : ∃ r2', r2 = r2' ++ [nlChar] := by
          cases D₀ with
          | nil =>
            exfalso
            simp only [List.nil_append] at hD₀
            have hbad : '[' = nlChar := by
              injection hD₀ with h1 h2
            exact absurd hbad (by decide)
          | cons d D₁ =>
            simp only [List.cons_append] at hD₀
            injection hD₀ with h1 h2
            exact ⟨D₁, h2⟩
        subst hr2'
        obtain ⟨les, len⟩ := lazyOptLit_extend pkg X hn r2'
        constructor
        · intro t hm
          rw [removeMatchAt_eq pkg _ '[' (r2' ++ [nlChar]) hs hDcase, if_pos rfl] at hm
          rw [removeMatchAt_eq pkg _ '[' ((r2' ++ [nlChar]) ++ X) hsX hdX, if_pos rfl]
          exact les t hm
        · intro hm
          rw [removeMatchAt_eq pkg _ '[' (r2' ++ [nlChar]) hs hDcase, if_pos rfl] at hm
          rw [removeMatchAt_eq pkg _ '[' ((r2' ++ [nlChar]) ++ X) hsX hdX, if_pos rfl]
          exact len hm
      · constructor
        · intro t hm
          rw [removeMatchAt_eq pkg _ c r2 hs hDcase, if_neg hc] at hm
          rw [removeMatchAt_eq pkg _ c (r2 ++ X) hsX hdX, if_neg hc]
          have hext := litProbe_extend_some pkg D₀ X t hn (by rw [← hD₀]; exact hm)
          have hform : c :: (r2 ++ X) = (D₀ ++ [nlChar]) ++ X := by
            rw [← hD₀]
            simp
          rw [hform]
          exact hext
        · intro hm
          rw [removeMatchAt_eq pkg _ c r2 hs hDcase, if_neg hc] at hm
          rw [removeMatchAt_eq pkg _ c (r2 ++ X) hsX hdX, if_neg hc]
          have hext := litProbe_extend_none pkg D₀ X hn (by rw [← hD₀]; exact hm)
          have hform : c :: (r2 ++ X) = (D₀ ++ [nlChar]) ++ X := by
            rw [← hD₀]
            simp
          rw [hform]
          exact hext
  · constructor
    · intro t hm
      rw [removeMatchAt, if_neg hs] at hm
      cases hm
    · intro _
      rw [removeMatchAt, if_neg (by rw [hsw]; exact hs)]
/-! ## Scanning and replacing across the insertion point -/

theorem suffix_ends_nl (A B P' : List Char) (h : A ++ B = P' ++ [nlChar])
    (hne : B ≠ []) :
    ∃ B'', B = B'' ++ [nlChar] := by
  rcases List.eq_nil_or_concat B with rfl | ⟨B₀, b, rfl⟩
  · exact absurd rfl hne
  · refine ⟨B₀, ?_⟩
    have h2 : (A ++ B₀) ++ [b] = P' ++ [nlChar] := by
      rw [← h]
      simp
    have hb : b = nlChar := by
      obtain ⟨-, h4⟩ := List.append_inj' h2 (by simp)
      injection h4
    rw [hb]
    exact List.concat_eq_append B₀ nlChar

theorem scanAux_append (X : List Char) :
    ∀ (n : Nat) (P : List Char), P.length ≤ n →
      (P = [] ∨ ∃ P', P = P' ++ [nlChar]) → noHungry P = true →
      scanAux (P ++ X)
        = (scanAux P).map (fun m => ⟨m.full, m.group, m.rest ++ X⟩) ++ scanAux X := by
  intro n
  induction n with
  | zero =>
    intro P h1 _ _
    have hnil : P = [] := List.length_eq_zero.mp (Nat.le_zero.mp h1)
    subst hnil
    simp [scanAux_nil]
  | succ k ih =>
    intro P h1 hP hnh
    rcases hP with rfl | ⟨P', rfl⟩
    · simp [scanAux_nil]
    · have hAt : hungryAt (P' ++ [nlChar]) = false := noHungry_head _ hnh
      obtain ⟨hes, hen⟩ := matchUsepkgAt_extend P' X hAt
      rcases hPc : P' ++ [nlChar] with _ | ⟨c, r⟩
      · exact absurd hPc (by simp)
      · rw [hPc] at hes hen hnh h1
        simp only [List.length_cons] at h1
        have hcr : (c :: r) ++ X = c :: (r ++ X) := by simp
        rcases hm : matchUsepkgAt (c :: r) with _ | m
        · have hmX : matchUsepkgAt ((c :: r) ++ X) = none := hen hm
          rw [hcr] at hmX
          rw [hcr, scanAux_cons, scanAux_cons]
          simp only [hmX, hm]
          apply ih r (by omega)
          · cases P' with
            | nil =>
              left
              injection hPc with hh1 hh2
              exact hh2.symm
            | cons p P'' =>
              right
              simp only [List.cons_append] at hPc
              injection hPc with hh1 hh2
              exact ⟨P'', hh2.symm⟩
          · exact noHungry_tail c r hnh
        · have hmX := hes m hm
          rw [hcr] at hmX
          rw [hcr, scanAux_cons, scanAux_cons]
          simp only [hmX, hm, List.map_cons, List.cons_append]
          congr 1
          obtain ⟨he, -, -, -⟩ := matchUsepkgAt_sound _ _ hm
          have hlt := matchUsepkgAt_rest_lt _ _ hm
          simp only [List.length_cons] at hlt
          apply ih m.rest (by omega)
          · by_cases hre : m.rest = []
            · exact Or.inl hre
            · exact Or.inr (suffix_ends_nl m.full m.rest P' (by rw [← he, hPc]) hre)
          · have hdr : m.rest = (c :: r).drop m.full.length := by
              rw [he, List.drop_left]
            rw [hdr]
            exact noHungry_drop _ _ hnh

theorem removeMatchAt_nil (pkg : List Char) : removeMatchAt pkg [] = none := by
  rw [removeMatchAt, if_neg (by decide : ¬(startsWithL usepkgLit [] = true))]

theorem replaceAllRemove_length_le (pkg : List Char) :
    ∀ (n : Nat) (cs : List Char), cs.length ≤ n →
      (replaceAllRemove pkg cs).length ≤ cs.length := by
  intro n
  induction n with
  | zero =>
    intro cs h
    have hnil : cs = [] := List.length_eq_zero.mp (Nat.le_zero.mp h)
    subst hnil
    exact le_rfl
  | succ k ih =>
    intro cs h
    cases cs with
    | nil => exact le_rfl
    | cons c r =>
      rw [replaceAllRemove_cons]
      rcases hm : removeMatchAt pkg (c :: r) with _ | t
      · simp only [List.length_cons] at h ⊢
        have := ih r (by omega)
        omega
      · have hlt := removeMatchAt_length_lt pkg _ _ hm
        simp only [List.length_cons] at h hlt
        have hrec := ih t (by omega)
        show (replaceAllRemove pkg t).length ≤ (c :: r).length
        simp only [List.length_cons]
        omega

theorem replaceAll_eq_self_no_match (pkg : List Char) :
    ∀ (n : Nat) (cs : List Char), cs.length ≤ n → replaceAllRemove pkg cs = cs →
      ∀ p, removeMatchAt pkg (cs.drop p) = none := by
  intro n
  induction n with
  | zero =>
    intro cs h1 _ p
    have hnil : cs = [] := List.length_eq_zero.mp (Nat.le_zero.mp h1)
    subst hnil
    rw [List.drop_nil]
    exact removeMatchAt_nil pkg
  | succ k ih =>
    intro cs h1 h2 p
    cases cs with
    | nil =>
      rw [List.drop_nil]
      exact removeMatchAt_nil pkg
    | cons c r =>
      rw [replaceAllRemove_cons] at h2
      rcases hm : removeMatchAt pkg (c :: r) with _ | t
      · simp only [hm] at h2
        have h3 : replaceAllRemove pkg r = r := by
          injection h2
        cases p with
        | zero =>
          rw [List.drop_zero]
          exact hm
        | succ p' =>
          rw [List.drop_succ_cons]
          simp only [List.length_cons] at h1
          exact ih r (by omega) h3 p'
      · exfalso
        simp only [hm] at h2
        have hlt := removeMatchAt_length_lt pkg _ _ hm
        have hle := replaceAllRemove_length_le pkg t.length t le_rfl
        rw [h2] at hle
        simp only [List.length_cons] at hle hlt
        omega

theorem replaceAll_id_of_no_match (pkg : List Char) :
    ∀ (cs : List Char), (∀ p, removeMatchAt pkg (cs.drop p) = none) →
      replaceAllRemove pkg cs = cs := by
  intro cs
  induction cs with
  | nil => intro _; rfl
  | cons c r ih =>
    intro h
    rw [replaceAllRemove_cons]
    have h0 := h 0
    rw [List.drop_zero] at h0
    simp only [h0]
    rw [ih (fun p => by have hp := h (p + 1); rwa [List.drop_succ_cons] at hp)]

/-! ## The inserted directive line under both matchers -/

theorem litProbe_eq (pkg cs : List Char) (c : Char) (t : List Char)
    (hs : startsWithL (obChar :: pkg ++ [cbChar]) cs = true)
    (hd : cs.drop (pkg.length + 2) = c :: t) :
    litProbe pkg cs = if c = nlChar then some t else some (c :: t) := by
  rw [litProbe, if_pos hs, hd]

theorem matchUsepkg_insert (pkg S' : List Char) (hne : pkg ≠ []) (hcb : cbChar ∉ pkg) :
    matchUsepkgAt (pkgLine pkg ++ nlChar :: S')
      = some ⟨pkgLine pkg, pkg, nlChar :: S'⟩ := by
  have hform : pkgLine pkg ++ nlChar :: S'
      = usepkgLit ++ (obChar :: (pkg ++ cbChar :: nlChar :: S')) := by
    simp [pkgLine]
  rw [hform]
  rw [matchUsepkgAt, if_pos (startsWithL_append_self usepkgLit _), List.drop_left]
  rw [matchAfterLit, if_neg (by decide : ¬(obChar = '['))]
  have hpr : braceProbe (obChar :: (pkg ++ cbChar :: nlChar :: S'))
      = some (pkg, nlChar :: S') := by
    have hx := braceProbe_self pkg hne hcb (nlChar :: S')
    simpa using hx
  simp only [hpr]
  simp [pkgLine]

theorem removeMatch_insert (pkg S' : List Char) (hnl : nlChar ∉ pkg) :
    removeMatchAt pkg (pkgLine pkg ++ nlChar :: S') = some S' := by
  have hform : pkgLine pkg ++ nlChar :: S'
      = usepkgLit ++ (obChar :: (pkg ++ cbChar :: nlChar :: S')) := by
    simp [pkgLine]
  have hs : startsWithL usepkgLit (pkgLine pkg ++ nlChar :: S') = true := by
    rw [hform]
    exact startsWithL_append_self usepkgLit _
  have hd : (pkgLine pkg ++ nlChar :: S').drop usepkgLit.length
      = obChar :: (pkg ++ cbChar :: nlChar :: S') := by
    rw [hform, List.drop_left]
  rw [removeMatchAt_eq pkg _ obChar (pkg ++ cbChar :: nlChar :: S') hs hd,
    if_neg (by decide : ¬(obChar = '['))]
  have hform2 : obChar :: (pkg ++ cbChar :: nlChar :: S')
      = (obChar :: pkg ++ [cbChar]) ++ (nlChar :: S') := by
    simp
  have hstart : startsWithL (obChar :: pkg ++ [cbChar])
      (obChar :: (pkg ++ cbChar :: nlChar :: S')) = true := by
    rw [hform2]
    exact startsWithL_append_self _ _
  have hdrop : (obChar :: (pkg ++ cbChar :: nlChar :: S')).drop (pkg.length + 2)
      = nlChar :: S' := by
    rw [hform2]
    exact List.drop_left' (by simp)
  rw [litProbe_eq pkg _ nlChar S' hstart hdrop, if_pos rfl]

/-! ## Word-character package names -/

theorem wordChar_facts (c : Char) (h : wordChar c = true) :
    c ≠ nlChar ∧ c ≠ cbChar ∧ c ≠ ',' ∧ Char.isWhitespace c = false := by
  refine ⟨?_, ?_, ?_, ?_⟩
  · intro hx; subst hx; exact absurd h (by decide)
  · intro hx; subst hx; exact absurd h (by decide)
  · intro hx; subst hx; exact absurd h (by decide)
  · by_contra hw
    rw [Bool.not_eq_false] at hw
    have hcases : ((c = ' ' ∨ c = '\t') ∨ c = '\x0d') ∨ c = '\n' := by
      simpa [Char.isWhitespace] using hw
    rcases hcases with ((rfl | rfl) | rfl) | rfl <;> exact absurd h (by decide)

theorem splitOnChar_no_sep (sep : Char) (cs : List Char) (h : sep ∉ cs) :
    splitOnChar sep cs = [cs] := by
  induction cs with
  | nil => rfl
  | cons c r ih =>
    have hc : c ≠ sep := by
      intro hx
      exact h (hx ▸ List.mem_cons_self c r)
    have hr : sep ∉ r := fun hx => h (List.mem_cons_of_mem c hx)
    simp only [splitOnChar, ih hr, if_neg hc]

theorem trimL_id (cs : List Char) (h : ∀ c ∈ cs, Char.isWhitespace c = false) :
    trimL cs = cs := by
  have h1 : cs.dropWhile Char.isWhitespace = cs := by
    cases cs with
    | nil => rfl
    | cons c r =>
      rw [List.dropWhile_cons_of_neg]
      simp [h c (List.mem_cons_self c r)]
  rw [trimL, h1]
  have h2 : cs.reverse.dropWhile Char.isWhitespace = cs.reverse := by
    cases hrev : cs.reverse with
    | nil => rfl
    | cons c r =>
      have hc : Char.isWhitespace c = false := by
        apply h
        rw [← List.mem_reverse, hrev]
        exact List.mem_cons_self c r
      rw [List.dropWhile_cons_of_neg]
      simp [hc]
  rw [h2, List.reverse_reverse]

/-! ## The round trip of `addPackage` and `removePackage` -/

theorem replaceAll_insert_nil (pkg S : List Char) (hn : nlChar ∉ pkg)
    (hnm : ∀ p, removeMatchAt pkg (S.drop p) = none) :
    replaceAllRemove pkg (pkgLine pkg ++ nlChar :: S) = S := by
  have hm := removeMatch_insert pkg S hn
  have hstep : replaceAllRemove pkg (pkgLine pkg ++ nlChar :: S)
      = replaceAllRemove pkg S := by
    rcases hc : pkgLine pkg ++ nlChar :: S with _ | ⟨c, rest⟩
    · exfalso
      simp [pkgLine] at hc
    · rw [hc] at hm
      rw [replaceAllRemove_cons]
      simp only [hm]
  rw [hstep]
  exact replaceAll_id_of_no_match pkg S hnm

theorem replaceAll_insert (pkg : List Char) (hn : nlChar ∉ pkg) :
    ∀ (n : Nat) (P S : List Char), P.length ≤ n →
      (P = [] ∨ ∃ P', P = P' ++ [nlChar]) →
      (∀ p, removeMatchAt pkg ((P ++ S).drop p) = none) →
      replaceAllRemove pkg (P ++ (pkgLine pkg ++ nlChar :: S)) = P ++ S := by
  intro n
  induction n with
  | zero =>
    intro P S h1 _ hnm
    have hP0 : P = [] := List.length_eq_zero.mp (Nat.le_zero.mp h1)
    subst hP0
    simp only [List.nil_append] at hnm ⊢
    exact replaceAll_insert_nil pkg S hn hnm
  | succ k ih =>
    intro P S h1 hP hnm
    rcases hP with rfl | ⟨P', rfl⟩
    · simp only [List.nil_append] at hnm ⊢
      exact replaceAll_insert_nil pkg S hn hnm
    · obtain ⟨rms, rmn⟩ := removeMatchAt_extend pkg P' (pkgLine pkg ++ nlChar :: S) hn
      obtain ⟨rms', rmn'⟩ := removeMatchAt_extend pkg P' S hn
      have hnone : removeMatchAt pkg (P' ++ [nlChar]) = none := by
        rcases hcase : removeMatchAt pkg (P' ++ [nlChar]) with _ | t
        · rfl
        · exfalso
          have hsome := rms' t hcase
          have h0 := hnm 0
          rw [List.drop_zero] at h0
          rw [hsome] at h0
          cases h0
      have hX := rmn hnone
      rcases hPc : P' ++ [nlChar] with _ | ⟨c, r⟩
      · exact absurd hPc (by simp)
      · rw [hPc] at hX hnm h1
        simp only [List.length_cons] at h1
        have hcr : (c :: r) ++ (pkgLine pkg ++ nlChar :: S)
            = c :: (r ++ (pkgLine pkg ++ nlChar :: S)) := by simp
        rw [hcr] at hX
        rw [hcr, replaceAllRemove_cons]
        simp only [hX]
        have hrP : r = [] ∨ ∃ r₀, r = r₀ ++ [nlChar] := by
          cases P' with
          | nil =>
            left
            injection hPc with hh1 hh2
            exact hh2.symm
          | cons p P'' =>
            right
            simp only [List.cons_append] at hPc
            injection hPc with hh1 hh2
            exact ⟨P'', hh2.symm⟩
        have hnm' : ∀ p, removeMatchAt pkg ((r ++ S).drop p) = none := by
          intro p
          have hp := hnm (p + 1)
          have hform : ((c :: r) ++ S).drop (p + 1) = (r ++ S).drop p := by
            simp
          rwa [hform] at hp
        rw [ih r S (by omega) hrP hnm']
        simp

theorem scanAux_head (cs : List Char) (m : ScanMatch)
    (h : matchUsepkgAt cs = some m) :
    scanAux cs = m :: scanAux m.rest := by
  cases cs with
  | nil =>
    rw [matchUsepkgAt,
      if_neg (by decide : ¬(startsWithL usepkgLit ([] : List Char) = true))] at h
    cases h
  | cons c r =>
    rw [scanAux_cons]
    simp only [h]

theorem mem_getInstalledPackages (content : List Char) (m : ScanMatch)
    (hm : m ∈ scanAux content) (pkg : List Char) (hpk : pkg ∈ splitTrim m.group) :
    pkg ∈ getInstalledPackages content := by
  rw [installedPackages_lossless, usepackageNamesSpec]
  exact List.mem_flatMap.mpr ⟨m, hm, hpk⟩

theorem splitTrim_word (pkg : List Char) (hw : ∀ c ∈ pkg, wordChar c = true) :
    splitTrim pkg = [pkg] := by
  rw [splitTrim,
    splitOnChar_no_sep ',' pkg (fun hc => (wordChar_facts ',' (hw ',' hc)).2.2.1 rfl)]
  simp [trimL_id pkg (fun c hc => (wordChar_facts c (hw c hc)).2.2.2)]

/-! ## The completion source `latexCompletions`

The editor installs `latexCompletions` as the autocompletion override.
`context.matchBefore(/\\?[\w@]*/)` searches the window of at most 250
characters before the cursor for the first position from which the pattern
matches through to the cursor; since the pattern is nullable this is the
longest suffix of the window consisting of an optional backslash followed
by word or `@` characters, and the search never fails, so the `!word` test
of the source never fires.  `word.from === word.to` holds exactly when
that longest suffix is empty. -/

/-- A completion candidate as handed to the autocompletion widget: label,
kind (the `type` field), human-readable detail, optional ranking boost,
and, for snippet completions, the snippet template inserted on
selection. -/
structure Completion where
  label : String
  type : String
  detail : String
  boost : Option Int
  insert : Option String
deriving DecidableEq, Repr

/-- `snippetCompletion(template, completion)`: the completion object with
the snippet template attached. -/
def snippetCompletion (template : String) (c : Completion) : Completion :=
  { c with insert := some template }

def latexCommands : List Completion := [
  snippetCompletion "\\documentclass\x7b$\x7barticle\x7d\x7d"
    ⟨"\\documentclass", "keyword", "Document class", some 10, none⟩,
  snippetCompletion "\\usepackage\x7b$\x7bpackage\x7d\x7d"
    ⟨"\\usepackage", "keyword", "Import package", some 9, none⟩,
  snippetCompletion "\\begin\x7b$\x7benvironment\x7d\x7d\n\t$\x7b\x7d\x7d\n\\end\x7b$\x7benvironment\x7d\x7d"
    ⟨"\\begin", "keyword", "Begin environment", some 8, none⟩,
  snippetCompletion "\\section\x7b$\x7btitle\x7d\x7d"
    ⟨"\\section", "function", "Section heading", none, none⟩,
  snippetCompletion "\\subsection\x7b$\x7btitle\x7d\x7d"
    ⟨"\\subsection", "function", "Subsection heading", none, none⟩,
  snippetCompletion "\\subsubsection\x7b$\x7btitle\x7d\x7d"
    ⟨"\\subsubsection", "function", "Subsubsection heading", none, none⟩,
  snippetCompletion "\\section*\x7b$\x7btitle\x7d\x7d"
    ⟨"\\section*", "function", "Unnumbered section", none, none⟩,
  snippetCompletion "\\paragraph\x7b$\x7btitle\x7d\x7d"
    ⟨"\\paragraph", "function", "Paragraph heading", none, none⟩,
  snippetCompletion "\\chapter\x7b$\x7btitle\x7d\x7d"
    ⟨"\\chapter", "function", "Chapter heading", none, none⟩,
  snippetCompletion "\\textbf\x7b$\x7btext\x7d\x7d"
    ⟨"\\textbf", "function", "Bold text", none, none⟩,
  snippetCompletion "\\textit\x7b$\x7btext\x7d\x7d"
    ⟨"\\textit", "function", "Italic text", none, none⟩,
  snippetCompletion "\\underline\x7b$\x7btext\x7d\x7d"
    ⟨"\\underline", "function", "Underlined text", none, none⟩,
  snippetCompletion "\\emph\x7b$\x7btext\x7d\x7d"
    ⟨"\\emph", "function", "Emphasized text", none, none⟩,
  snippetCompletion "\\texttt\x7b$\x7btext\x7d\x7d"
    ⟨"\\texttt", "function", "Monospace text", none, none⟩,
  snippetCompletion "\\textsc\x7b$\x7btext\x7d\x7d"
    ⟨"\\textsc", "function", "Small caps", none, none⟩,
  snippetCompletion "\\frac\x7b$\x7bnum\x7d\x7d\x7b$\x7bdenom\x7d\x7d"
    ⟨"\\frac", "function", "Fraction", none, none⟩,
  snippetCompletion "\\sqrt\x7b$\x7bexpr\x7d\x7d"
    ⟨"\\sqrt", "function", "Square root", none, none⟩,
  snippetCompletion "\\sqrt[$\x7bn\x7d]\x7b$\x7bexpr\x7d\x7d"
    ⟨"\\sqrt[n]", "function", "Nth root", none, none⟩,
  snippetCompletion "\\sum_\x7b$\x7bi=1\x7d\x7d^\x7b$\x7bn\x7d\x7d"
    ⟨"\\sum", "function", "Summation", none, none⟩,
  snippetCompletion "\\int_\x7b$\x7ba\x7d\x7d^\x7b$\x7bb\x7d\x7d"
    ⟨"\\int", "function", "Integral", none, none⟩,
  snippetCompletion "\\lim_\x7b$\x7bx \\to \\infty\x7d\x7d"
    ⟨"\\lim", "function", "Limit", none, none⟩,
  snippetCompletion "\\prod_\x7b$\x7bi=1\x7d\x7d^\x7b$\x7bn\x7d\x7d"
    ⟨"\\prod", "function", "Product", none, none⟩,
  ⟨"\\alpha", "constant", "α", none, none⟩,
  ⟨"\\beta", "constant", "β", none, none⟩,
  ⟨"\\gamma", "constant", "γ", none, none⟩,
  ⟨"\\delta", "constant", "δ", none, none⟩,
  ⟨"\\epsilon", "constant", "ε", none, none⟩,
  ⟨"\\theta", "constant", "θ", none, none⟩,
  ⟨"\\lambda", "constant", "λ", none, none⟩,
  ⟨"\\mu", "constant", "μ", none, none⟩,
  ⟨"\\pi", "constant", "π", none, none⟩,
  ⟨"\\sigma", "constant", "σ", none, none⟩,
  ⟨"\\omega", "constant", "ω", none, none⟩,
  ⟨"\\Gamma", "constant", "Γ", none, none⟩,
  ⟨"\\Delta", "constant", "Δ", none, none⟩,
  ⟨"\\Sigma", "constant", "Σ", none, none⟩,
  ⟨"\\Omega", "constant", "Ω", none, none⟩,
  ⟨"\\infty", "constant", "∞", none, none⟩,
  ⟨"\\partial", "constant", "∂", none, none⟩,
  ⟨"\\nabla", "constant", "∇", none, none⟩,
  ⟨"\\times", "constant", "×", none, none⟩,
  ⟨"\\cdot", "constant", "·", none, none⟩,
  ⟨"\\leq", "constant", "≤", none, none⟩,
  ⟨"\\geq", "constant", "≥", none, none⟩,
  ⟨"\\neq", "constant", "≠", none, none⟩,
  ⟨"\\approx", "constant", "≈", none, none⟩,
  ⟨"\\equiv", "constant", "≡", none, none⟩,
  ⟨"\\rightarrow", "constant", "→", none, none⟩,
  ⟨"\\leftarrow", "constant", "←", none, none⟩,
  ⟨"\\Rightarrow", "constant", "⇒", none, none⟩,
  ⟨"\\Leftarrow", "constant", "⇐", none, none⟩,
  ⟨"\\forall", "constant", "∀", none, none⟩,
  ⟨"\\exists", "constant", "∃", none, none⟩,
  ⟨"\\in", "constant", "∈", none, none⟩,
  ⟨"\\subset", "constant", "⊂", none, none⟩,
  ⟨"\\cup", "constant", "∪", none, none⟩,
  ⟨"\\cap", "constant", "∩", none, none⟩,
  snippetCompletion "\\label\x7b$\x7bkey\x7d\x7d"
    ⟨"\\label", "function", "Create label", none, none⟩,
  snippetCompletion "\\ref\x7b$\x7bkey\x7d\x7d"
    ⟨"\\ref", "function", "Reference", none, none⟩,
  snippetCompletion "\\cite\x7b$\x7bkey\x7d\x7d"
    ⟨"\\cite", "function", "Citation", none, none⟩,
  snippetCompletion "\\footnote\x7b$\x7btext\x7d\x7d"
    ⟨"\\footnote", "function", "Footnote", none, none⟩,
  snippetCompletion "\\includegraphics[width=$\x7b0.8\x7d\\textwidth]\x7b$\x7bfilename\x7d\x7d"
    ⟨"\\includegraphics", "function", "Include image", none, none⟩,
  snippetCompletion "\\caption\x7b$\x7btext\x7d\x7d"
    ⟨"\\caption", "function", "Caption", none, none⟩
]

def tableSnippets : List Completion := [
  snippetCompletion "\\begin\x7btabular\x7d\x7b|c|c|c|\x7d\n\\hline\n$\x7bHeader 1\x7d & $\x7bHeader 2\x7d & $\x7bHeader 3\x7d \\\\\n\\hline\n$\x7bCell 1\x7d & $\x7bCell 2\x7d & $\x7bCell 3\x7d \\\\\n\\hline\n\\end\x7btabular\x7d"
    ⟨"table3", "snippet", "3-column table", some 5, none⟩,
  snippetCompletion "\\begin\x7btabular\x7d\x7b|l|r|\x7d\n\\hline\n$\x7bLeft\x7d & $\x7bRight\x7d \\\\\n\\hline\n$\x7bData 1\x7d & $\x7bData 2\x7d \\\\\n\\hline\n\\end\x7btabular\x7d"
    ⟨"table2", "snippet", "2-column table", some 5, none⟩,
  snippetCompletion "\\begin\x7btable\x7d[h]\n\\centering\n\\begin\x7btabular\x7d\x7b|c|c|c|\x7d\n\\hline\n$\x7bHeader 1\x7d & $\x7bHeader 2\x7d & $\x7bHeader 3\x7d \\\\\n\\hline\n$\x7bRow 1\x7d & $\x7b\x7d & $\x7b\x7d \\\\\n$\x7bRow 2\x7d & $\x7b\x7d & $\x7b\x7d \\\\\n\\hline\n\\end\x7btabular\x7d\n\\caption\x7b$\x7bTable caption\x7d\x7d\n\\label\x7btab:$\x7blabel\x7d\x7d\n\\end\x7btable\x7d"
    ⟨"tablefloat", "snippet", "Floating table with caption", some 6, none⟩,
  snippetCompletion "\\begin\x7btabular\x7d\x7b@\x7b\x7dlll@\x7b\x7d\x7d\n\\toprule\n$\x7bHeader 1\x7d & $\x7bHeader 2\x7d & $\x7bHeader 3\x7d \\\\\n\\midrule\n$\x7b\x7d & $\x7b\x7d & $\x7b\x7d \\\\\n$\x7b\x7d & $\x7b\x7d & $\x7b\x7d \\\\\n\\bottomrule\n\\end\x7btabular\x7d"
    ⟨"tablebooktabs", "snippet", "Professional booktabs table", some 5, none⟩
]

def environmentSnippets : List Completion := [
  snippetCompletion "\\begin\x7bitemize\x7d\n  \\item $\x7b\x7d\n  \\item $\x7b\x7d\n\\end\x7bitemize\x7d"
    ⟨"itemize", "snippet", "Bullet list", none, none⟩,
  snippetCompletion "\\begin\x7benumerate\x7d\n  \\item $\x7b\x7d\n  \\item $\x7b\x7d\n\\end\x7benumerate\x7d"
    ⟨"enumerate", "snippet", "Numbered list", none, none⟩,
  snippetCompletion "\\begin\x7bequation\x7d\n  $\x7b\x7d\n\\end\x7bequation\x7d"
    ⟨"equation", "snippet", "Numbered equation", none, none⟩,
  snippetCompletion "\\begin\x7balign\x7d\n  $\x7b\x7d &= $\x7b\x7d \\\\\n  &= $\x7b\x7d\n\\end\x7balign\x7d"
    ⟨"align", "snippet", "Aligned equations", none, none⟩,
  snippetCompletion "\\begin\x7bfigure\x7d[h]\n  \\centering\n  \\includegraphics[width=0.8\\textwidth]\x7b$\x7bfilename\x7d\x7d\n  \\caption\x7b$\x7bcaption\x7d\x7d\n  \\label\x7bfig:$\x7blabel\x7d\x7d\n\\end\x7bfigure\x7d"
    ⟨"figure", "snippet", "Figure environment", none, none⟩,
  snippetCompletion "\\begin\x7babstract\x7d\n  $\x7b\x7d\n\\end\x7babstract\x7d"
    ⟨"abstract", "snippet", "Abstract", none, none⟩,
  snippetCompletion "\\begin\x7bcenter\x7d\n  $\x7b\x7d\n\\end\x7bcenter\x7d"
    ⟨"center", "snippet", "Centered content", none, none⟩,
  snippetCompletion "\\begin\x7bverbatim\x7d\n$\x7b\x7d\n\\end\x7bverbatim\x7d"
    ⟨"verbatim", "snippet", "Verbatim text", none, none⟩,
  snippetCompletion "\\begin\x7bquote\x7d\n  $\x7b\x7d\n\\end\x7bquote\x7d"
    ⟨"quote", "snippet", "Block quote", none, none⟩,
  snippetCompletion "\\begin\x7bmatrix\x7d\n  $\x7ba\x7d & $\x7bb\x7d \\\\\n  $\x7bc\x7d & $\x7bd\x7d\n\\end\x7bmatrix\x7d"
    ⟨"matrix", "snippet", "Matrix", none, none⟩,
  snippetCompletion "\\begin\x7bbmatrix\x7d\n  $\x7ba\x7d & $\x7bb\x7d \\\\\n  $\x7bc\x7d & $\x7bd\x7d\n\\end\x7bbmatrix\x7d"
    ⟨"bmatrix", "snippet", "Bracketed matrix", none, none⟩,
  snippetCompletion "\\begin\x7bcases\x7d\n  $\x7bexpr1\x7d & \\text\x7bif \x7d $\x7bcond1\x7d \\\\\n  $\x7bexpr2\x7d & \\text\x7botherwise\x7d\n\\end\x7bcases\x7d"
    ⟨"cases", "snippet", "Piecewise function", none, none⟩
]

def packageCompletions : List Completion := [
  ⟨"amsmath", "module", "Advanced math", none, none⟩,
  ⟨"amssymb", "module", "Math symbols", none, none⟩,
  ⟨"graphicx", "module", "Graphics support", none, none⟩,
  ⟨"hyperref", "module", "Hyperlinks", none, none⟩,
  ⟨"geometry", "module", "Page layout", none, none⟩,
  ⟨"booktabs", "module", "Professional tables", none, none⟩,
  ⟨"tikz", "module", "Diagrams", none, none⟩,
  ⟨"xcolor", "module", "Colors", none, none⟩,
  ⟨"listings", "module", "Code listings", none, none⟩,
  ⟨"algorithm2e", "module", "Algorithms", none, none⟩,
  ⟨"biblatex", "module", "Bibliography", none, none⟩,
  ⟨"fontspec", "module", "Font selection", none, none⟩,
  ⟨"microtype", "module", "Typography", none, none⟩,
  ⟨"siunitx", "module", "SI units", none, none⟩,
  ⟨"cleveref", "module", "Smart references", none, none⟩
]

/-- The character class `[\w@]` of the token pattern. -/
def wordAtChar (c : Char) : Bool := c.isAlphanum || c = '_' || c = '@'

/-- The token pattern `\\?[\w@]*`: an optional leading backslash followed
by word or `@` characters. -/
def tokShape : List Char → Bool
  | [] => true
  | c :: r => if c = bsChar then r.all wordAtChar else (c :: r).all wordAtChar

/-- The longest suffix of the window matching the token pattern: the
maximal run of word/`@` characters at the end of the window, preceded by a
backslash when one sits immediately before that run. -/
def tokAt (w : List Char) : List Char :=
  let rrun := w.reverse.takeWhile wordAtChar
  match w.reverse.dropWhile wordAtChar with
  | c :: _ => if c = bsChar then bsChar :: rrun.reverse else rrun.reverse
  | [] => rrun.reverse

/-- `context.matchBefore(/\\?[\w@]*/)`: the matched token, computed on
the window of at most 250 characters before the cursor. -/
def matchBeforeTok (s : List Char) : List Char :=
  tokAt (s.drop (s.length - 250))

/-- An end-anchored literal match: `hay` ends with `needle`. -/
def endsWithL (needle hay : List Char) : Bool :=
  startsWithL needle.reverse hay.reverse

/-- The branch test `beforeCursor.match(/\\usepackage\{[\w,]*$/)`: strip
the maximal run of word characters and commas from the end of the text
before the cursor and require the literal `\usepackage` plus open brace
right before it. -/
def pkgCursorTest (s : List Char) : Bool :=
  let run := (s.reverse.takeWhile (fun c => wordChar c || c = ',')).reverse
  endsWithL (usepkgLit ++ [obChar]) (s.take (s.length - run.length))

/-- A completion request: the text of the current line up to the cursor
and whether completion was explicitly invoked by the user. -/
structure CompletionContext where
  lineBefore : List Char
  explicit : Bool

/-- `latexCompletions` from the source: `none` models the `return null`
case; otherwise the result carries `word.from` (as an offset from the
start of the line) and the offered candidate list. -/
def latexCompletions (ctx : CompletionContext) : Option (Nat × List Completion) :=
  let word := matchBeforeTok ctx.lineBefore
  if word.isEmpty && !ctx.explicit then none
  else if pkgCursorTest ctx.lineBefore then
    some (ctx.lineBefore.length - word.length, packageCompletions)
  else
    some (ctx.lineBefore.length - word.length,
      latexCommands ++ tableSnippets ++ environmentSnippets)


theorem dropWhile_head_false (p : Char → Bool) :
    ∀ (l : List Char) (c : Char) (t : List Char),
      l.dropWhile p = c :: t → p c = false := by
  intro l
  induction l with
  | nil => intro c t h; cases h
  | cons a r ih =>
    intro c t h
    by_cases ha : p a = true
    · rw [List.dropWhile_cons_of_pos ha] at h
      exact ih c t h
    · rw [List.dropWhile_cons_of_neg ha] at h
      injection h with h1 h2
      subst h1
      exact eq_false_of_ne_true ha

theorem takeWhile_maximal (p : Char → Bool) :
    ∀ (pre suf : List Char), (∀ c ∈ pre, p c = true) →
      pre.length ≤ ((pre ++ suf).takeWhile p).length := by
  intro pre
  induction pre with
  | nil => intro suf _; simp
  | cons a r ih =>
    intro suf h
    rw [List.cons_append, List.takeWhile_cons_of_pos (h a (List.mem_cons_self a r))]
    simp only [List.length_cons, Nat.succ_le_succ_iff]
    exact ih suf (fun c hc => h c (List.mem_cons_of_mem a hc))

theorem takeWhile_all_append (p : Char → Bool) :
    ∀ (A : List Char) (b : Char) (C : List Char), (∀ c ∈ A, p c = true) →
      p b = false → (A ++ b :: C).takeWhile p = A := by
  intro A
  induction A with
  | nil =>
    intro b C _ hb
    rw [List.nil_append, List.takeWhile_cons_of_neg (by simp [hb])]
  | cons a r ih =>
    intro b C h hb
    rw [List.cons_append, List.takeWhile_cons_of_pos (h a (List.mem_cons_self a r)),
      ih b C (fun c hc => h c (List.mem_cons_of_mem a hc)) hb]

theorem tokShape_of_all (t : List Char) (h : ∀ c ∈ t, wordAtChar c = true) :
    tokShape t = true := by
  cases t with
  | nil => rfl
  | cons c r =>
    have hc := h c (List.mem_cons_self c r)
    have hcb : ¬(c = bsChar) := by
      intro he
      subst he
      exact absurd hc (by decide)
    simp only [tokShape]
    rw [if_neg hcb]
    simp only [List.all_eq_true]
    intro x hx
    exact h x hx

theorem tokShape_cases (t : List Char) (h : tokShape t = true) :
    (∀ c ∈ t, wordAtChar c = true) ∨
      (∃ r, t = bsChar :: r ∧ ∀ c ∈ r, wordAtChar c = true) := by
  cases t with
  | nil =>
    left
    intro c hc
    cases hc
  | cons c r =>
    by_cases hcb : c = bsChar
    · subst hcb
      right
      refine ⟨r, rfl, ?_⟩
      simp only [tokShape] at h
      rw [if_true] at h
      simp only [List.all_eq_true] at h
      intro x hx
      exact h x hx
    · left
      simp only [tokShape] at h
      rw [if_neg hcb] at h
      simp only [List.all_eq_true] at h
      intro x hx
      exact h x hx

theorem tokAt_spec (w : List Char) :
    (∃ u, w = u ++ tokAt w) ∧ tokShape (tokAt w) = true ∧
      ∀ u2 t2, w = u2 ++ t2 → tokShape t2 = true →
        t2.length ≤ (tokAt w).length := by
  have hRD : w.reverse.takeWhile wordAtChar ++ w.reverse.dropWhile wordAtChar
      = w.reverse := List.takeWhile_append_dropWhile wordAtChar w.reverse
  have hRall : ∀ c ∈ (w.reverse.takeWhile wordAtChar).reverse, wordAtChar c = true := by
    intro c hc
    exact List.mem_takeWhile_imp (List.mem_reverse.mp hc)
  rcases hd : w.reverse.dropWhile wordAtChar with _ | ⟨d, D⟩
  · rw [hd, List.append_nil] at hRD
    have htok : tokAt w = w := by
      simp only [tokAt, hd, hRD, List.reverse_reverse]
    have hwall : ∀ c ∈ w, wordAtChar c = true := by
      intro c hc
      apply List.mem_takeWhile_imp (p := wordAtChar) (l := w.reverse)
      rw [hRD]
      exact List.mem_reverse.mpr hc
    refine ⟨⟨[], by rw [htok, List.nil_append]⟩, ?_, ?_⟩
    · rw [htok]
      exact tokShape_of_all w hwall
    · intro u2 t2 he _
      rw [htok, he]
      simp
  · have hdf : wordAtChar d = false := dropWhile_head_false wordAtChar w.reverse d D hd
    rw [hd] at hRD
    have hw : w = D.reverse ++ d :: (w.reverse.takeWhile wordAtChar).reverse := by
      conv_lhs => rw [← List.reverse_reverse w, ← hRD]
      simp
    have hmaxrun : ∀ t2 : List Char, (∀ c ∈ t2, wordAtChar c = true) →
        (∃ u2, w = u2 ++ t2) →
        t2.length ≤ (w.reverse.takeWhile wordAtChar).length := by
      rintro t2 hall ⟨u2, hu2⟩
      have hrev : w.reverse = t2.reverse ++ u2.reverse := by
        rw [hu2]; simp
      rw [← List.length_reverse t2]
      calc t2.reverse.length
          ≤ ((t2.reverse ++ u2.reverse).takeWhile wordAtChar).length :=
            takeWhile_maximal wordAtChar t2.reverse u2.reverse
              (fun c hc => hall c (List.mem_reverse.mp hc))
        _ = (w.reverse.takeWhile wordAtChar).length := by rw [← hrev]
    by_cases hdb : d = bsChar
    · subst hdb
      have htok : tokAt w = bsChar :: (w.reverse.takeWhile wordAtChar).reverse := by
        simp only [tokAt, hd]
        rw [if_true]
      refine ⟨⟨D.reverse, by rw [htok]; exact hw⟩, ?_, ?_⟩
      · rw [htok]
        simp only [tokShape]
        rw [if_true]
        simp only [List.all_eq_true]
        intro x hx
        exact hRall x hx
      · intro u2 t2 he hshape
        rw [htok]
        rcases tokShape_cases t2 hshape with hall | ⟨r, rfl, hrall⟩
        · have := hmaxrun t2 hall ⟨u2, he⟩
          simp only [List.length_cons, List.length_reverse]
          omega
        · have hrle : r.length ≤ (w.reverse.takeWhile wordAtChar).length := by
            apply hmaxrun r hrall
            refine ⟨u2 ++ [bsChar], ?_⟩
            rw [he]
            simp
          simp only [List.length_cons, List.length_reverse]
          omega
    · have htok : tokAt w = (w.reverse.takeWhile wordAtChar).reverse := by
        simp only [tokAt, hd]
        rw [if_neg hdb]
      refine ⟨⟨D.reverse ++ [d], ?_⟩, ?_, ?_⟩
      · rw [htok]
        conv_lhs => rw [hw]
        simp
      · rw [htok]
        exact tokShape_of_all _ hRall
      · intro u2 t2 he hshape
        rw [htok]
        rcases tokShape_cases t2 hshape with hall | ⟨r, rfl, hrall⟩
        · have := hmaxrun t2 hall ⟨u2, he⟩
          simp only [List.length_reverse]
          omega
        · have hrle : r.length ≤ (w.reverse.takeWhile wordAtChar).length := by
            apply hmaxrun r hrall
            refine ⟨u2 ++ [bsChar], ?_⟩
            rw [he]
            simp
          rcases Nat.lt_or_ge r.length (w.reverse.takeWhile wordAtChar).length with hlt | hge
          · simp only [List.length_cons, List.length_reverse]
            omega
          · exfalso
            have heq : r.length = (w.reverse.takeWhile wordAtChar).length :=
              le_antisymm hrle hge
            have h1 : w.reverse = r.reverse ++ (bsChar :: u2.reverse) := by
              rw [he]; simp
            have h3 : r.reverse ++ (bsChar :: u2.reverse)
                = w.reverse.takeWhile wordAtChar ++ (d :: D) := by
              rw [← h1]
              exact hRD.symm
            obtain ⟨-, h5⟩ := List.append_inj h3 (by simp [heq])
            injection h5 with h6 _
            exact hdb h6.symm

theorem endsWithL_iff (needle hay : List Char) :
    endsWithL needle hay = true ↔ ∃ u, hay = u ++ needle := by
  rw [endsWithL, startsWithL_iff]
  constructor
  · rintro ⟨t, ht⟩
    refine ⟨t.reverse, ?_⟩
    have h2 := congrArg List.reverse ht
    simpa using h2
  · rintro ⟨u, rfl⟩
    exact ⟨u.reverse, by simp⟩

theorem pkgCursorTest_iff (s : List Char) :
    pkgCursorTest s = true ↔
      ∃ u z, s = u ++ (usepkgLit ++ [obChar]) ++ z ∧
        ∀ c ∈ z, (wordChar c || c = ',') = true := by
  constructor
  · intro h
    have hRD : s.reverse.takeWhile (fun c => wordChar c || c = ',') ++
        s.reverse.dropWhile (fun c => wordChar c || c = ',') = s.reverse :=
      List.takeWhile_append_dropWhile (fun c => wordChar c || c = ',') s.reverse
    have hs : s = (s.reverse.dropWhile (fun c => wordChar c || c = ',')).reverse
        ++ (s.reverse.takeWhile (fun c => wordChar c || c = ',')).reverse := by
      conv_lhs => rw [← List.reverse_reverse s, ← hRD]
      rw [List.reverse_append]
    have hlens := congrArg List.length hs
    simp only [List.length_append] at hlens
    have hlen2 : s.length
        - ((s.reverse.takeWhile (fun c => wordChar c || c = ',')).reverse).length
        = ((s.reverse.dropWhile (fun c => wordChar c || c = ',')).reverse).length := by
      omega
    have htake : s.take
        ((s.reverse.dropWhile (fun c => wordChar c || c = ',')).reverse).length
        = (s.reverse.dropWhile (fun c => wordChar c || c = ',')).reverse := by
      have h4 := congrArg
        (List.take ((s.reverse.dropWhile (fun c => wordChar c || c = ',')).reverse).length) hs
      rw [List.take_left] at h4
      exact h4
    simp only [pkgCursorTest] at h
    rw [hlen2, htake] at h
    obtain ⟨u, hu⟩ := (endsWithL_iff _ _).mp h
    refine ⟨u, (s.reverse.takeWhile (fun c => wordChar c || c = ',')).reverse, ?_, ?_⟩
    · conv_lhs => rw [hs]
      rw [hu]
    · intro c hc
      have hc2 : c ∈ s.reverse.takeWhile (fun c => wordChar c || c = ',') :=
        List.mem_reverse.mp hc
      exact List.mem_takeWhile_imp (p := fun c => wordChar c || c = ',') hc2
  · rintro ⟨u, z, rfl, hz⟩
    have hrev : (u ++ (usepkgLit ++ [obChar]) ++ z).reverse
        = z.reverse ++ obChar :: (usepkgLit.reverse ++ u.reverse) := by
      simp
    have htw : (u ++ (usepkgLit ++ [obChar]) ++ z).reverse.takeWhile
        (fun c => wordChar c || c = ',') = z.reverse := by
      rw [hrev]
      exact takeWhile_all_append _ z.reverse obChar (usepkgLit.reverse ++ u.reverse)
        (fun c hc => hz c (List.mem_reverse.mp hc)) (by decide)
    simp only [pkgCursorTest, htw, List.reverse_reverse]
    have hlen : (u ++ (usepkgLit ++ [obChar]) ++ z).length - z.length
        = (u ++ (usepkgLit ++ [obChar])).length := by
      simp only [List.length_append, List.length_cons]
      omega
    rw [hlen, List.take_left]
    exact (endsWithL_iff _ _).mpr ⟨u, rfl⟩

/-! ## Theorems for the diff view, the zoom invariant, and the LLM dispatch -/

/-- C2: `renderDiff` pairs lines strictly by index: the row list has one row
per index up to the larger line count, a missing line is the empty line, the
pair is rendered unchanged (neither `removed` nor `added`) exactly when the
two lines are string-equal, and otherwise the original line is marked
removed and the modified line marked added.  No alignment is performed: row
`i` only ever compares line `i` with line `i`. -/
theorem renderDiff_zip (original modified : List Char) :
    (renderDiff original modified).length
      = max (splitOnChar nlChar original).length (splitOnChar nlChar modified).length
    ∧ ∀ i : Fin (renderDiff original modified).length,
        ((renderDiff original modified).get i).origText
            = (splitOnChar nlChar original).getD i.1 []
        ∧ ((renderDiff original modified).get i).modText
            = (splitOnChar nlChar modified).getD i.1 []
        ∧ (((renderDiff original modified).get i).origRemoved = false
            ∧ ((renderDiff original modified).get i).modAdded = false
            ↔ (splitOnChar nlChar original).getD i.1 []
                = (splitOnChar nlChar modified).getD i.1 [])
        ∧ (((renderDiff original modified).get i).origRemoved = true
            ∧ ((renderDiff original modified).get i).modAdded = true
            ↔ (splitOnChar nlChar original).getD i.1 []
                ≠ (splitOnChar nlChar modified).getD i.1 []) := by
  constructor
  · simp [renderDiff]
  · rintro ⟨i, hi⟩
    simp only [renderDiff, List.get_eq_getElem, List.getElem_map, List.getElem_range,
      List.getD_eq_getElem?_getD]
    by_cases h :
        (splitOnChar nlChar original)[i]?.getD [] = (splitOnChar nlChar modified)[i]?.getD []
    · simp [h]
    · simp [h]

/-- C2 witness at a concrete input (line counts 2 and 1). -/
theorem renderDiff_zip_witness :
    ((renderDiff ('a' :: nlChar :: ['b']) ['a']).get
        ⟨1, by decide⟩).origRemoved = true := by
  have h := (renderDiff_zip ('a' :: nlChar :: ['b']) ['a']).2 ⟨1, by decide⟩
  exact (h.2.2.2.mpr (by decide)).1

/-- C3: inserting the single line `X` after the first line of the three-line
document `a`,`b`,`c` desynchronizes every later row: rows 1, 2 and 3 are all
marked removed/added, even though the modified lines `b` and `c` appear
verbatim among the original lines. -/
theorem renderDiff_desync_example :
    splitOnChar nlChar "a\nX\nb\nc".data
      = (splitOnChar nlChar "a\nb\nc".data).take 1 ++ ["X".data]
          ++ (splitOnChar nlChar "a\nb\nc".data).drop 1
    ∧ (renderDiff "a\nb\nc".data "a\nX\nb\nc".data).length = 4
    ∧ ((renderDiff "a\nb\nc".data "a\nX\nb\nc".data).getD 0 default).origRemoved = false
    ∧ ((renderDiff "a\nb\nc".data "a\nX\nb\nc".data).getD 1 default).origRemoved = true
    ∧ ((renderDiff "a\nb\nc".data "a\nX\nb\nc".data).getD 1 default).modAdded = true
    ∧ ((renderDiff "a\nb\nc".data "a\nX\nb\nc".data).getD 2 default).origRemoved = true
    ∧ ((renderDiff "a\nb\nc".data "a\nX\nb\nc".data).getD 2 default).modAdded = true
    ∧ ((renderDiff "a\nb\nc".data "a\nX\nb\nc".data).getD 3 default).origRemoved = true
    ∧ ((renderDiff "a\nb\nc".data "a\nX\nb\nc".data).getD 3 default).modAdded = true
    ∧ (splitOnChar nlChar "a\nX\nb\nc".data).getD 2 [] ∈ splitOnChar nlChar "a\nb\nc".data
    ∧ (splitOnChar nlChar "a\nX\nb\nc".data).getD 3 [] ∈ splitOnChar nlChar "a\nb\nc".data := by
  decide

/-- C10: starting from `1`, every sequence of zoom-in clicks
(`min (z + 0.1) 2`) and zoom-out clicks (`max (z - 0.1) 0.5`) keeps the
preview zoom factor within the closed interval `[0.5, 2]`. -/
theorem zoom_invariant (clicks : List ZoomClick) :
    1/2 ≤ zoomAfter clicks ∧ zoomAfter clicks ≤ 2 := by
  suffices h : ∀ (cs : List ZoomClick) (z : ℚ), 1/2 ≤ z → z ≤ 2 →
      1/2 ≤ cs.foldl zoomStep z ∧ cs.foldl zoomStep z ≤ 2 by
    exact h clicks 1 (by norm_num) (by norm_num)
  intro cs
  induction cs with
  | nil => intro z h1 h2; exact ⟨h1, h2⟩
  | cons c cs ih =>
    intro z h1 h2
    apply ih
    · cases c
      · exact le_min (by linarith) (by norm_num)
      · exact le_max_right _ _
    · cases c
      · exact min_le_right _ _
      · exact max_le (by linarith) (by norm_num)

/-- C6 counterexample: for the unconfigured provider name `mistral` (not one
of the four known providers), `sendMessage` does not return the
`Unknown provider` error: the api-key lookup falls through to the empty
string, so the configure-your-key guard fires first and the provider is
never invoked. -/
theorem sendMessage_unknown_provider_counterexample :
    (sendMessage "mistral" defaultSettings "" "hi" (fun _ _ => .ok "ok")).1
        = .error "Please configure your MISTRAL API key in Settings."
    ∧ (sendMessage "mistral" defaultSettings "" "hi" (fun _ _ => .ok "ok")).1
        ≠ .error "Unknown provider"
    ∧ (sendMessage "mistral" defaultSettings "" "hi" (fun _ _ => .ok "ok")).2 = 0 := by
  refine ⟨by decide, by decide, by decide⟩

/-- C6 (amended): `sendMessage` is total and always returns either a content
result or an error result.  If the provider is not one of openai, anthropic,
gemini or ollama, its api-key lookup yields the empty string, so the
configure-your-key error is returned (not `Unknown provider`, which is
unreachable) without invoking any provider.  A known non-ollama provider
with an empty configured key also gets the configure-your-key error with no
provider call; otherwise the provider is called exactly once and a thrown
error's message is returned as the error field, with no retry. -/
theorem sendMessage_total (provider : String) (settings : Settings)
    (currentContent message : String) (call : String → String → Except String String) :
    (provider ≠ "openai" → provider ≠ "anthropic" → provider ≠ "gemini" →
      provider ≠ "ollama" →
      sendMessage provider settings currentContent message call
        = (.error (configureKeyError provider), 0))
    ∧ ((provider = "openai" ∨ provider = "anthropic" ∨ provider = "gemini") →
        getApiKey provider settings = "" →
        sendMessage provider settings currentContent message call
          = (.error (configureKeyError provider), 0))
    ∧ ((provider = "ollama"
          ∨ ((provider = "openai" ∨ provider = "anthropic" ∨ provider = "gemini")
              ∧ getApiKey provider settings ≠ "")) →
        sendMessage provider settings currentContent message call
          = match call provider (contextMessage currentContent message) with
            | .ok c => (.content c, 1)
            | .error e => (.error e, 1)) := by
  refine ⟨?_, ?_, ?_⟩
  · intro h1 h2 h3 h4
    simp [sendMessage, getApiKey, h1, h2, h3, h4]
  · rintro (rfl | rfl | rfl) hk <;> simp [sendMessage, hk]
  · rintro (rfl | ⟨hp, hk⟩)
    · rcases h : call "ollama" (contextMessage currentContent message) with e | c <;>
        simp [sendMessage, h]
    · rcases hp with rfl | rfl | rfl <;>
        rcases h : call _ (contextMessage currentContent message) with e | c <;>
        simp [sendMessage, hk, h]

/-- C6 witness: with ollama selected and a failing connection, the thrown
message is surfaced as the error result after exactly one call. -/
theorem sendMessage_total_witness :
    sendMessage "ollama" defaultSettings "" "m"
        (fun _ _ => .error "Ollama connection failed. Is it running?")
      = (.error "Ollama connection failed. Is it running?", 1) :=
  (sendMessage_total "ollama" defaultSettings "" "m"
    (fun _ _ => .error "Ollama connection failed. Is it running?")).2.2 (Or.inl rfl)

/-- C5 counterexample: the claimed unconditional round trip is false.  For
the document `\usepackage\x7bamsmath\x7d` and the fresh word-character
package name `tikz` (which does not occur in any directive of the document),
`addPackage` splices the new line at the end without a trailing newline to
absorb, so `removePackage` afterwards leaves a document ending in a stray
newline instead of restoring the original.  A second document with a brace
left open across a line break, `\usepackage\x7ba` + newline + `b\x7d`, also
defeats the membership half: the inserted directive is swallowed into the
open group of the scan regex, so the added name is not reported installed. -/
theorem addPackage_roundTrip_counterexample :
    (∀ c ∈ "tikz".data, wordChar c = true) ∧
    "tikz".data ∉ getInstalledPackages (pkgLine "amsmath".data) ∧
    removePackage "tikz".data (addPackage "tikz".data (pkgLine "amsmath".data))
      = pkgLine "amsmath".data ++ [nlChar] ∧
    removePackage "tikz".data (addPackage "tikz".data (pkgLine "amsmath".data))
      ≠ pkgLine "amsmath".data ∧
    "tikz".data ∉ getInstalledPackages
      (usepkgLit ++ obChar :: 'a' :: nlChar :: 'b' :: [cbChar]) ∧
    "tikz".data ∉ getInstalledPackages
      (addPackage "tikz".data
        (usepkgLit ++ obChar :: 'a' :: nlChar :: 'b' :: [cbChar])) := by
  refine ⟨by decide, by decide, by decide, by decide, by decide, by decide⟩

/-- C5 (amended): the round trip holds under the conditions that make the
splice well-behaved: the package name is a nonempty run of word characters,
the removal regex does not already fire anywhere in the document (so
`removePackage` is a no-op on it), the insertion index is strictly inside
the line list (so the inserted line is followed by an existing line and the
re-join gives it a newline of its own), and no position of the text before
the insertion point starts a brace group left open across the insertion
point.  Then `addPackage` makes `getInstalledPackages` report the name and
`removePackage` afterwards restores the document exactly. -/
theorem addPackage_removePackage_roundTrip (content pkg : List Char)
    (hw : ∀ c ∈ pkg, wordChar c = true) (hne : pkg ≠ [])
    (habsent : removePackage pkg content = content)
    (hidx : insertIndex (splitOnChar nlChar content)
      < (splitOnChar nlChar content).length)
    (hhungry : noHungry (prefixText nlChar (splitOnChar nlChar content)
      (insertIndex (splitOnChar nlChar content))) = true) :
    pkg ∈ getInstalledPackages (addPackage pkg content) ∧
    removePackage pkg (addPackage pkg content) = content := by
  have hnl : nlChar ∉ pkg := fun hc => (wordChar_facts _ (hw _ hc)).1 rfl
  have hcb : cbChar ∉ pkg := fun hc => (wordChar_facts _ (hw _ hc)).2.1 rfl
  set lines := splitOnChar nlChar content with hlines
  set k := insertIndex lines with hk
  set P := prefixText nlChar lines k with hPdef
  set S := joinSep nlChar (lines.drop k) with hSdef
  have hadd : addPackage pkg content = P ++ (pkgLine pkg ++ nlChar :: S) := by
    show joinSep nlChar (lines.take k ++ pkgLine pkg :: lines.drop k) = _
    exact joinSep_insert nlChar (pkgLine pkg) lines k hidx
  have hcontent : content = P ++ S := by
    conv_lhs => rw [← joinSep_splitOnChar nlChar content]
    exact joinSep_split nlChar lines k hidx
  have hpends : P = [] ∨ ∃ P', P = P' ++ [nlChar] := prefixText_ends nlChar lines k
  have hnomatch : ∀ p, removeMatchAt pkg ((P ++ S).drop p) = none := by
    rw [← hcontent]
    exact replaceAll_eq_self_no_match pkg content.length content le_rfl habsent
  constructor
  · have hm := matchUsepkg_insert pkg S hne hcb
    have hscan : scanAux (P ++ (pkgLine pkg ++ nlChar :: S))
        = (scanAux P).map
            (fun m => ⟨m.full, m.group, m.rest ++ (pkgLine pkg ++ nlChar :: S)⟩)
          ++ scanAux (pkgLine pkg ++ nlChar :: S) :=
      scanAux_append (pkgLine pkg ++ nlChar :: S) P.length P le_rfl hpends hhungry
    have hhead : scanAux (pkgLine pkg ++ nlChar :: S)
        = ⟨pkgLine pkg, pkg, nlChar :: S⟩ :: scanAux (nlChar :: S) :=
      scanAux_head _ _ hm
    rw [hadd]
    refine mem_getInstalledPackages _ ⟨pkgLine pkg, pkg, nlChar :: S⟩ ?_ pkg ?_
    · rw [hscan, hhead]
      exact List.mem_append_right _ (List.mem_cons_self _ _)
    · show pkg ∈ splitTrim pkg
      rw [splitTrim_word pkg hw]
      exact List.mem_singleton.mpr rfl
  · rw [hadd, hcontent]
    exact replaceAll_insert pkg hnl P.length P S le_rfl hpends hnomatch

/-- C5 witness: for the document `\usepackage\x7bamsmath\x7d` + newline +
`x` and the package `tikz`, all hypotheses of the amended round trip hold
and the round trip goes through. -/
theorem addPackage_removePackage_roundTrip_witness :
    "tikz".data ∈ getInstalledPackages
        (addPackage "tikz".data (pkgLine "amsmath".data ++ nlChar :: "x".data)) ∧
    removePackage "tikz".data
        (addPackage "tikz".data (pkgLine "amsmath".data ++ nlChar :: "x".data))
      = pkgLine "amsmath".data ++ nlChar :: "x".data :=
  addPackage_removePackage_roundTrip (pkgLine "amsmath".data ++ nlChar :: "x".data)
    "tikz".data (by decide) (by decide) (by decide) (by decide) (by decide)

/-- C1 counterexample: the dispatch rule as stated is not unconditional.
With the line `\usepackage` + open brace before the cursor (which matches
the package-argument pattern with zero word characters) and no explicit
invocation, `latexCompletions` returns null rather than the package-name
candidate set: the matched token is empty, so the guard fires first. -/
theorem latexCompletions_dispatch_counterexample :
    ("\\usepackage\x7b".data
        = [] ++ (usepkgLit ++ [obChar]) ++ ([] : List Char) ∧
      ∀ c ∈ ([] : List Char), (wordChar c || c = ',') = true) ∧
    latexCompletions ⟨"\\usepackage\x7b".data, false⟩ = none := by
  refine ⟨⟨by decide, ?_⟩, by decide⟩
  intro c hc
  cases hc

/-- C1: for every completion request that survives the empty-token guard,
the matched token is the longest suffix of the (window of the) line before
the cursor of the form optional backslash + word/`@` characters; if the
line before the cursor ends in the literal `\usepackage` + open brace
followed by zero or more word characters and commas, `latexCompletions`
returns exactly the package-name candidate set `packageCompletions`
anchored at the start of that token; otherwise it returns the union of all
command, table-snippet, and environment-snippet candidates anchored at the
same token. -/
theorem latexCompletions_dispatch (ctx : CompletionContext)
    (hg : ¬(matchBeforeTok ctx.lineBefore = [] ∧ ctx.explicit = false)) :
    ∃ tok u,
      ctx.lineBefore.drop (ctx.lineBefore.length - 250) = u ++ tok ∧
      tokShape tok = true ∧
      (∀ u2 t2, ctx.lineBefore.drop (ctx.lineBefore.length - 250) = u2 ++ t2 →
        tokShape t2 = true → t2.length ≤ tok.length) ∧
      ((∃ v z, ctx.lineBefore = v ++ (usepkgLit ++ [obChar]) ++ z ∧
          ∀ c ∈ z, (wordChar c || c = ',') = true) →
        latexCompletions ctx
          = some (ctx.lineBefore.length - tok.length, packageCompletions)) ∧
      (¬(∃ v z, ctx.lineBefore = v ++ (usepkgLit ++ [obChar]) ++ z ∧
          ∀ c ∈ z, (wordChar c || c = ',') = true) →
        latexCompletions ctx
          = some (ctx.lineBefore.length - tok.length,
              latexCommands ++ tableSnippets ++ environmentSnippets)) := by
  obtain ⟨⟨u, hu⟩, hshape, hmax⟩ :=
    tokAt_spec (ctx.lineBefore.drop (ctx.lineBefore.length - 250))
  have hguard : ((matchBeforeTok ctx.lineBefore).isEmpty && !ctx.explicit) = false := by
    rcases hwd : matchBeforeTok ctx.lineBefore with _ | ⟨c, r⟩
    · rcases hex : ctx.explicit with _ | _
      · exact absurd ⟨hwd, hex⟩ hg
      · simp [hex]
    · simp
  refine ⟨matchBeforeTok ctx.lineBefore, u, hu, hshape, hmax, ?_, ?_⟩
  · intro hex
    have hp : pkgCursorTest ctx.lineBefore = true := (pkgCursorTest_iff _).mpr hex
    simp [latexCompletions, hguard, hp]
  · intro hnex
    have hp : pkgCursorTest ctx.lineBefore = false := by
      rcases hpc : pkgCursorTest ctx.lineBefore with _ | _
      · rfl
      · exact absurd ((pkgCursorTest_iff _).mp hpc) hnex
    simp [latexCompletions, hguard, hp]

/-- C1 witness: with the line `\usepackage` + open brace + `ams` before the
cursor and no explicit invocation, the token `ams` is matched and the
package branch applies. -/
theorem latexCompletions_dispatch_witness :
    ∃ tok u,
      ("\\usepackage\x7bams".data).drop (("\\usepackage\x7bams".data).length - 250)
        = u ++ tok ∧
      tokShape tok = true ∧
      (∀ u2 t2, ("\\usepackage\x7bams".data).drop
          (("\\usepackage\x7bams".data).length - 250) = u2 ++ t2 →
        tokShape t2 = true → t2.length ≤ tok.length) ∧
      ((∃ v z, "\\usepackage\x7bams".data = v ++ (usepkgLit ++ [obChar]) ++ z ∧
          ∀ c ∈ z, (wordChar c || c = ',') = true) →
        latexCompletions ⟨"\\usepackage\x7bams".data, false⟩
          = some (("\\usepackage\x7bams".data).length - tok.length,
              packageCompletions)) ∧
      (¬(∃ v z, "\\usepackage\x7bams".data = v ++ (usepkgLit ++ [obChar]) ++ z ∧
          ∀ c ∈ z, (wordChar c || c = ',') = true) →
        latexCompletions ⟨"\\usepackage\x7bams".data, false⟩
          = some (("\\usepackage\x7bams".data).length - tok.length,
              latexCommands ++ tableSnippets ++ environmentSnippets)) :=
  latexCompletions_dispatch ⟨"\\usepackage\x7bams".data, false⟩ (by decide)

/-- C9: when the matched token before the cursor is empty (the match start
equals the match end) and completion was not explicitly invoked,
`latexCompletions` returns null and offers no candidates. -/
theorem latexCompletions_null (ctx : CompletionContext)
    (h1 : matchBeforeTok ctx.lineBefore = [])
    (h2 : ctx.explicit = false) :
    latexCompletions ctx = none := by
  simp [latexCompletions, h1, h2]

/-- C9 witness: right after typing `\usepackage` + open brace the matched
token is empty, so without an explicit request no completions are
offered. -/
theorem latexCompletions_null_witness :
    latexCompletions ⟨"\\usepackage\x7b".data, false⟩ = none :=
  latexCompletions_null ⟨"\\usepackage\x7b".data, false⟩ (by decide) (by rfl)

end Latexy
